import Mathlib

set_option maxHeartbeats 1000000

/-!
Verification of the orbit repository: the OrbitGl track/report code present in the
source tree, and the LinuxTracing event-ordering pipeline described by the design
spec (whose implementation files are not part of the tree; those components are
modelled from the spec, as marked on each definition).
-/

/-! ## BasicPagefaultTrack (src/OrbitGl/BasicPagefaultTrack.h, BasicPagefaultTrack.cpp) -/

/-- Componentwise values of the three pagefault series entries.  The C++ code uses
`std::array<double, 3>`; we model the numeric payload over the integers, which keeps the
first-difference structure of `AddValues` exact. -/
abbrev PagefaultValues := Int × Int × Int

/-- Componentwise subtraction `a - b`, embedding the `std::transform` over the two arrays
with `std::minus<double>` in `BasicPagefaultTrack::AddValues`. -/
def subValues (a b : PagefaultValues) : PagefaultValues :=
  (a.1 - b.1, a.2.1 - b.2.1, a.2.2 - b.2.2)

/-- State of a `BasicPagefaultTrack` relevant to `AddValues`: the underlying multivariate
time series `series_` (as the list of entries appended so far, in order) and the
`previous_time_and_values_` member. -/
structure BasicPagefaultTrack where
  series : List (Nat × PagefaultValues)
  previous_time_and_values : Option (Nat × PagefaultValues)
deriving DecidableEq

/-- A freshly constructed track: empty series, `previous_time_and_values_ = std::nullopt`. -/
def BasicPagefaultTrack.initial : BasicPagefaultTrack := ⟨[], none⟩

/-- Embedding of `BasicPagefaultTrack::AddValues`: if `previous_time_and_values_` holds a
value, append one series entry at the previous timestamp whose values are the componentwise
differences `values - previous`; in every case store `(timestamp_ns, values)` as the new
`previous_time_and_values_`. -/
def BasicPagefaultTrack.AddValues (track : BasicPagefaultTrack) (timestamp_ns : Nat)
    (values : PagefaultValues) : BasicPagefaultTrack :=
  match track.previous_time_and_values with
  | some prev =>
      { series := track.series ++ [(prev.1, subValues values prev.2)],
        previous_time_and_values := some (timestamp_ns, values) }
  | none =>
      { series := track.series, previous_time_and_values := some (timestamp_ns, values) }

/-- A sequence of `AddValues` calls applied in order. -/
def BasicPagefaultTrack.runAddValues (track : BasicPagefaultTrack)
    (calls : List (Nat × PagefaultValues)) : BasicPagefaultTrack :=
  calls.foldl (fun t c => t.AddValues c.1 c.2) track

/-- The series of first differences of a call sequence, as the claim describes it: entry `k`
pairs the timestamp of call `k` with the componentwise difference of the values of call
`k+1` and call `k`. -/
def firstDifferences : List (Nat × PagefaultValues) → List (Nat × PagefaultValues)
  | (t1, v1) :: (t2, v2) :: rest => (t1, subValues v2 v1) :: firstDifferences ((t2, v2) :: rest)
  | _ => []

/-! ## SamplingReport (src/OrbitGl/SamplingReport.cpp) -/

/-- State of a `SamplingReport` relevant to callstack-index navigation: the
`selected_callstack_index_` member and the `callstacks_count` vector of the selected sorted
callstack report (we keep the per-entry counts; only the length matters for indexing). -/
structure SamplingReport where
  selected_callstack_index : Nat
  callstacks_count : List Nat
deriving DecidableEq

/-- Embedding of `SamplingReport::OnCallstackIndexChanged` restricted to its effect on the
index state: an in-range index is stored (the data-view update it also performs touches no
index state), an out-of-range index resets the stored index to 0. -/
def SamplingReport.OnCallstackIndexChanged (r : SamplingReport) (index : Nat) :
    SamplingReport :=
  if index < r.callstacks_count.length then
    { r with selected_callstack_index := index }
  else
    { r with selected_callstack_index := 0 }

/-- Embedding of `SamplingReport::IncrementCallstackIndex`: pre-increment the index, wrap to
0 when it exceeds `max_index = count - 1`, then run `OnCallstackIndexChanged` on the
result. -/
def SamplingReport.IncrementCallstackIndex (r : SamplingReport) : SamplingReport :=
  let max_index := r.callstacks_count.length - 1
  let incremented := r.selected_callstack_index + 1
  let r1 := { r with
    selected_callstack_index := if max_index < incremented then 0 else incremented }
  r1.OnCallstackIndexChanged r1.selected_callstack_index

/-- Embedding of `SamplingReport::DecrementCallstackIndex`: at index 0 wrap to
`max_index = count - 1`, otherwise decrement, then run `OnCallstackIndexChanged`. -/
def SamplingReport.DecrementCallstackIndex (r : SamplingReport) : SamplingReport :=
  let max_index := r.callstacks_count.length - 1
  let r1 :=
    if r.selected_callstack_index = 0 then
      { r with selected_callstack_index := max_index }
    else
      { r with selected_callstack_index := r.selected_callstack_index - 1 }
  r1.OnCallstackIndexChanged r1.selected_callstack_index

/-! ## BasicPagefaultTrack highlight index (SetIndexOfSeriesToHighlight, DrawSingleSeriesEntry) -/

/-- Embedding of `BasicPagefaultTrack::SetIndexOfSeriesToHighlight` acting on the
`index_of_series_to_highlight_` member: an argument of 3 or more returns without storing
anything; otherwise the index is stored. -/
def BasicPagefaultTrack.SetIndexOfSeriesToHighlight (st : Option Nat) (series_index : Nat) :
    Option Nat :=
  if 3 ≤ series_index then st else some series_index

/-- Models the guarded array read
`current_normalized_values[index_of_series_to_highlight_.value()]` in
`BasicPagefaultTrack::DrawSingleSeriesEntry`: performed only when the optional holds a
value; the 3-element `std::array<float, 3>` is modelled as a length-3 list. -/
def BasicPagefaultTrack.drawHighlightLookup (highlight : Option Nat)
    (current_normalized_values : List Int) : Option Int :=
  match highlight with
  | none => none
  | some i => current_normalized_values.get? i

/-! ## Theorems: C8, C9, C10 -/

theorem runAddValues_from_some (t0 : Nat) (v0 : PagefaultValues)
    (s0 : List (Nat × PagefaultValues)) (calls : List (Nat × PagefaultValues)) :
    (BasicPagefaultTrack.runAddValues ⟨s0, some (t0, v0)⟩ calls).series
        = s0 ++ firstDifferences ((t0, v0) :: calls) ∧
    (BasicPagefaultTrack.runAddValues ⟨s0, some (t0, v0)⟩ calls).previous_time_and_values
        = ((t0, v0) :: calls).getLast? := by
  induction calls generalizing t0 v0 s0 with
  | nil => simp [BasicPagefaultTrack.runAddValues, firstDifferences]
  | cons c rest ih =>
      obtain ⟨t1, v1⟩ := c
      have step : BasicPagefaultTrack.runAddValues ⟨s0, some (t0, v0)⟩ ((t1, v1) :: rest)
          = BasicPagefaultTrack.runAddValues
              ⟨s0 ++ [(t0, subValues v1 v0)], some (t1, v1)⟩ rest := by
        simp [BasicPagefaultTrack.runAddValues, BasicPagefaultTrack.AddValues]
      rw [step]
      refine ⟨?_, ?_⟩
      · rw [(ih t1 v1 (s0 ++ [(t0, subValues v1 v0)])).1]
        simp [firstDifferences]
      · rw [(ih t1 v1 (s0 ++ [(t0, subValues v1 v0)])).2]
        rfl

/-- C8: `BasicPagefaultTrack::AddValues` records first differences, not raw values.
Starting from a fresh track, a sequence of calls leaves as series exactly the
consecutive-difference entries (call `k`'s timestamp paired with the componentwise
difference of call `k+1`'s and call `k`'s values) — so the first call appends nothing —
and `previous_time_and_values_` holds the last call, if any. -/
theorem basicPagefaultTrack_addValues_first_differences_c8
    (calls : List (Nat × PagefaultValues)) :
    (BasicPagefaultTrack.initial.runAddValues calls).series = firstDifferences calls ∧
    (BasicPagefaultTrack.initial.runAddValues calls).previous_time_and_values
        = calls.getLast? := by
  cases calls with
  | nil => exact ⟨rfl, rfl⟩
  | cons c rest =>
      obtain ⟨t1, v1⟩ := c
      have step : BasicPagefaultTrack.initial.runAddValues ((t1, v1) :: rest)
          = BasicPagefaultTrack.runAddValues ⟨[], some (t1, v1)⟩ rest := by
        simp [BasicPagefaultTrack.runAddValues, BasicPagefaultTrack.initial,
          BasicPagefaultTrack.AddValues]
      rw [step]
      exact ⟨by simpa using (runAddValues_from_some t1 v1 [] rest).1,
        (runAddValues_from_some t1 v1 [] rest).2⟩

/-- C9: with at least one callstack in the selected report and an in-range selected index,
incrementing then decrementing the callstack index restores it; each operation keeps the
index in range; incrementing at the last index wraps to 0 and decrementing at 0 wraps to
the last index. -/
theorem samplingReport_increment_decrement_c9 (r : SamplingReport)
    (hne : r.callstacks_count ≠ [])
    (hidx : r.selected_callstack_index < r.callstacks_count.length) :
    (r.IncrementCallstackIndex.DecrementCallstackIndex).selected_callstack_index
        = r.selected_callstack_index ∧
    r.IncrementCallstackIndex.selected_callstack_index < r.callstacks_count.length ∧
    r.DecrementCallstackIndex.selected_callstack_index < r.callstacks_count.length ∧
    (r.selected_callstack_index = r.callstacks_count.length - 1 →
        r.IncrementCallstackIndex.selected_callstack_index = 0) ∧
    (r.selected_callstack_index = 0 →
        r.DecrementCallstackIndex.selected_callstack_index
          = r.callstacks_count.length - 1) := by
  obtain ⟨i, counts⟩ := r
  have hn : 0 < counts.length := by
    cases counts with
    | nil => exact absurd rfl hne
    | cons a l => simp
  simp only [SamplingReport.IncrementCallstackIndex, SamplingReport.DecrementCallstackIndex,
    SamplingReport.OnCallstackIndexChanged] at *
  split_ifs <;> simp_all <;> omega

/-- Witness for C9 at a concrete report with two callstacks and selected index 0. -/
theorem samplingReport_increment_decrement_c9_witness :
    ((⟨0, [5, 7]⟩ : SamplingReport).callstacks_count ≠ [] ∧
      (⟨0, [5, 7]⟩ : SamplingReport).selected_callstack_index
        < (⟨0, [5, 7]⟩ : SamplingReport).callstacks_count.length) ∧
    ((⟨0, [5, 7]⟩ :
        SamplingReport).IncrementCallstackIndex.DecrementCallstackIndex).selected_callstack_index
      = (⟨0, [5, 7]⟩ : SamplingReport).selected_callstack_index :=
  ⟨⟨by decide, by decide⟩,
    (samplingReport_increment_decrement_c9 ⟨0, [5, 7]⟩ (by decide) (by decide)).1⟩

/-- C10: the stored highlight index of `BasicPagefaultTrack` is always strictly below 3:
`SetIndexOfSeriesToHighlight` with an argument of 3 or more is a no-op, every highlight
state reachable from the initial `nullopt` by any call sequence holds an index below 3, and
hence the guarded read of the 3-element `current_normalized_values` array in
`DrawSingleSeriesEntry` is in bounds. -/
theorem basicPagefaultTrack_highlight_in_bounds_c10 (calls : List Nat) (j : Nat)
    (vals : List Int)
    (hreach : calls.foldl BasicPagefaultTrack.SetIndexOfSeriesToHighlight none = some j)
    (hlen : vals.length = 3) :
    j < 3 ∧
    (BasicPagefaultTrack.drawHighlightLookup
        (calls.foldl BasicPagefaultTrack.SetIndexOfSeriesToHighlight none) vals).isSome ∧
    (∀ st i, 3 ≤ i → BasicPagefaultTrack.SetIndexOfSeriesToHighlight st i = st) := by
  have main : ∀ (cs : List Nat) (st : Option Nat), (∀ m, st = some m → m < 3) →
      ∀ m, cs.foldl BasicPagefaultTrack.SetIndexOfSeriesToHighlight st = some m → m < 3 := by
    intro cs
    induction cs with
    | nil => intro st hst m hm; exact hst m hm
    | cons c rest ih =>
        intro st hst m hm
        refine ih (BasicPagefaultTrack.SetIndexOfSeriesToHighlight st c) ?_ m hm
        intro p hp
        by_cases hc : 3 ≤ c
        · exact hst p (by simpa [BasicPagefaultTrack.SetIndexOfSeriesToHighlight, hc] using hp)
        · have hcp : c = p := by
            simpa [BasicPagefaultTrack.SetIndexOfSeriesToHighlight, hc] using hp
          omega
  have hj : j < 3 := main calls none (by intro m hm; cases hm) j hreach
  refine ⟨hj, ?_, ?_⟩
  · have hlt : j < vals.length := by omega
    rw [hreach]
    simp [BasicPagefaultTrack.drawHighlightLookup, List.getElem?_eq_getElem hlt]
  · intro st i hi
    simp [BasicPagefaultTrack.SetIndexOfSeriesToHighlight, hi]

/-- Witness for C10: the call sequence [1, 5] leaves highlight index 1, below 3, and the
lookup into a length-3 value array succeeds. -/
theorem basicPagefaultTrack_highlight_in_bounds_c10_witness :
    ([1, 5].foldl BasicPagefaultTrack.SetIndexOfSeriesToHighlight none = some 1 ∧
      ([0, 0, 0] : List Int).length = 3) ∧
    1 < 3 ∧
    (BasicPagefaultTrack.drawHighlightLookup
        ([1, 5].foldl BasicPagefaultTrack.SetIndexOfSeriesToHighlight none)
        ([0, 0, 0] : List Int)).isSome :=
  ⟨⟨by decide, by decide⟩,
    (basicPagefaultTrack_highlight_in_bounds_c10 [1, 5] 1 [0, 0, 0] (by decide) (by decide)).1,
    (basicPagefaultTrack_highlight_in_bounds_c10 [1, 5] 1 [0, 0, 0] (by decide)
      (by decide)).2.1⟩

/-! ## Context-Switch / Thread-State tracker (spec 4.2; the LinuxTracing
ContextSwitchManager sources are not under src/, so this component is modelled from the
spec). -/

/-- A completed scheduling slice `{thread_id, cpu, start, end}` as emitted to the
dispatcher/sink. -/
structure SchedSlice where
  thread_id : Nat
  cpu : Nat
  start_ns : Nat
  end_ns : Nat
deriving DecidableEq

/-- Modelled from the spec: the state of the Context-Switch / Thread-State tracker (the
LinuxTracing ContextSwitchManager implementation is missing from the tree).  Per thread id,
the open interval is the last observed switch-in `(timestamp, cpu)`, if any. -/
structure ContextSwitchManager where
  openIntervalOf : Nat → Option (Nat × Nat)

/-- Tracker state at capture-session start: no thread has an open interval. -/
def ContextSwitchManager.initial : ContextSwitchManager := ⟨fun _ => none⟩

/-- Modelled from the spec: switch-in handling.  Record `(timestamp, cpu)` as the thread's
open interval; if one already exists, close the stale one using its own timestamp as both
start and end (zero-length slice), then open the new one — the new event is never
dropped. -/
def ContextSwitchManager.processSwitchIn (m : ContextSwitchManager) (tid cpu ts : Nat) :
    ContextSwitchManager × List SchedSlice :=
  match m.openIntervalOf tid with
  | none => (⟨fun t => if t = tid then some (ts, cpu) else m.openIntervalOf t⟩, [])
  | some stale =>
      (⟨fun t => if t = tid then some (ts, cpu) else m.openIntervalOf t⟩,
        [⟨tid, stale.2, stale.1, stale.1⟩])

/-- Modelled from the spec: switch-out handling.  If an open interval exists for the
thread, emit the completed `{thread_id, cpu, start, end}` slice and clear the interval;
otherwise discard silently. -/
def ContextSwitchManager.processSwitchOut (m : ContextSwitchManager) (tid ts : Nat) :
    ContextSwitchManager × List SchedSlice :=
  match m.openIntervalOf tid with
  | none => (m, [])
  | some iv =>
      (⟨fun t => if t = tid then none else m.openIntervalOf t⟩, [⟨tid, iv.2, iv.1, ts⟩])

/-- C4: for a thread with no open interval, a switch-in at `t1` (emitting nothing) followed
by a switch-out at `t2` emits exactly one completed slice `{tid, cpu, start = t1, end = t2}`
and clears the thread's open interval; after that, a further switch-out at `t3` emits
nothing and leaves the state untouched — and likewise a switch-out on the original state
with no open interval is a silent no-op. -/
theorem contextSwitch_in_out_single_slice_c4 (m : ContextSwitchManager)
    (tid cpu t1 t2 t3 : Nat) (hopen : m.openIntervalOf tid = none) :
    (m.processSwitchIn tid cpu t1).2 = [] ∧
    ((m.processSwitchIn tid cpu t1).1.processSwitchOut tid t2).2
        = [⟨tid, cpu, t1, t2⟩] ∧
    ((m.processSwitchIn tid cpu t1).1.processSwitchOut tid t2).1.openIntervalOf tid
        = none ∧
    (((m.processSwitchIn tid cpu t1).1.processSwitchOut tid t2).1.processSwitchOut tid
        t3).2 = [] ∧
    m.processSwitchOut tid t3 = (m, []) := by
  refine ⟨?_, ?_, ?_, ?_, ?_⟩ <;>
    simp [ContextSwitchManager.processSwitchIn, ContextSwitchManager.processSwitchOut,
      hopen]

/-- Witness for C4: the spec scenario, switch-in(tid 7, t 100) then switch-out(tid 7,
t 150) emits exactly the slice {7, cpu 2, 100, 150}, and switch-out(tid 7, t 200) after it
emits nothing. -/
theorem contextSwitch_in_out_single_slice_c4_witness :
    ContextSwitchManager.initial.openIntervalOf 7 = none ∧
    ((ContextSwitchManager.initial.processSwitchIn 7 2 100).1.processSwitchOut 7 150).2
        = [⟨7, 2, 100, 150⟩] ∧
    (((ContextSwitchManager.initial.processSwitchIn 7 2 100).1.processSwitchOut 7
        150).1.processSwitchOut 7 200).2 = [] :=
  ⟨rfl,
    (contextSwitch_in_out_single_slice_c4 ContextSwitchManager.initial 7 2 100 150 200
      rfl).2.1,
    (contextSwitch_in_out_single_slice_c4 ContextSwitchManager.initial 7 2 100 150 200
      rfl).2.2.2.1⟩

/-- C6: a switch-in for a thread that already has an open interval `(ts0, cpu0)` closes the
stale interval as a zero-length slice with start and end both equal to `ts0`, and the new
interval `(ts, cpu)` is opened — the new event is not dropped and the stale interval is not
leaked. -/
theorem contextSwitch_stale_forced_close_c6 (m : ContextSwitchManager)
    (tid cpu cpu0 ts ts0 : Nat) (hopen : m.openIntervalOf tid = some (ts0, cpu0)) :
    (m.processSwitchIn tid cpu ts).2 = [⟨tid, cpu0, ts0, ts0⟩] ∧
    (m.processSwitchIn tid cpu ts).1.openIntervalOf tid = some (ts, cpu) := by
  refine ⟨?_, ?_⟩ <;> simp [ContextSwitchManager.processSwitchIn, hopen]

/-- Witness for C6: after switch-in(tid 7, cpu 1, t 100), a second switch-in(tid 7, cpu 3,
t 120) emits the zero-length stale slice {7, 1, 100, 100} and opens (120, cpu 3). -/
theorem contextSwitch_stale_forced_close_c6_witness :
    (ContextSwitchManager.initial.processSwitchIn 7 1 100).1.openIntervalOf 7
        = some (100, 1) ∧
    ((ContextSwitchManager.initial.processSwitchIn 7 1 100).1.processSwitchIn 7 3 120).2
        = [⟨7, 1, 100, 100⟩] ∧
    ((ContextSwitchManager.initial.processSwitchIn 7 1 100).1.processSwitchIn 7 3
        120).1.openIntervalOf 7 = some (120, 3) :=
  ⟨rfl,
    (contextSwitch_stale_forced_close_c6
      (ContextSwitchManager.initial.processSwitchIn 7 1 100).1 7 3 1 120 100 rfl).1,
    (contextSwitch_stale_forced_close_c6
      (ContextSwitchManager.initial.processSwitchIn 7 1 100).1 7 3 1 120 100 rfl).2⟩

/-! ## Function-Call manager (spec 4.3; the LinuxTracing UprobesFunctionCallManager sources
are not under src/, so this component is modelled from the spec). -/

/-- A pending function entry `{timestamp, function_id, depth}` pushed on function-entry. -/
structure FunctionEntry where
  timestamp : Nat
  function_id : Nat
  depth : Nat
deriving DecidableEq

/-- A completed call duration `{function_id, start, end, depth}` emitted on a matching
function-exit. -/
structure FunctionDuration where
  function_id : Nat
  start_ns : Nat
  end_ns : Nat
  depth : Nat
deriving DecidableEq

/-- Modelled from the spec: the Function-Call manager's state (the LinuxTracing
implementation is missing from the tree) — per thread id, the stack of outstanding
function entries, most recent on top. -/
structure FunctionCallManager where
  pendingOf : Nat → List FunctionEntry

/-- Manager state at capture-session start: every per-thread stack is empty. -/
def FunctionCallManager.initial : FunctionCallManager := ⟨fun _ => []⟩

/-- Modelled from the spec: on function-entry, push `{timestamp, function_id, depth}` onto
the thread's pending stack. -/
def FunctionCallManager.processFunctionEntry (m : FunctionCallManager)
    (tid ts fid depth : Nat) : FunctionCallManager :=
  ⟨fun t => if t = tid then ⟨ts, fid, depth⟩ :: m.pendingOf tid else m.pendingOf t⟩

/-- Modelled from the spec: on function-exit at the same depth as the top pending entry,
pop it and emit the `{function_id, start, end, depth}` duration; a mismatched exit (empty
stack or different depth on top) is discarded and the stack is left untouched. -/
def FunctionCallManager.processFunctionExit (m : FunctionCallManager)
    (tid ts depth : Nat) : FunctionCallManager × Option FunctionDuration :=
  match m.pendingOf tid with
  | [] => (m, none)
  | top :: rest =>
      if top.depth = depth then
        (⟨fun t => if t = tid then rest else m.pendingOf t⟩,
          some ⟨top.function_id, top.timestamp, ts, depth⟩)
      else (m, none)

theorem FunctionCallManager.entry_pendingOf_same (m : FunctionCallManager)
    (tid ts fid dep : Nat) :
    (m.processFunctionEntry tid ts fid dep).pendingOf tid = ⟨ts, fid, dep⟩ :: m.pendingOf tid := by
  simp [FunctionCallManager.processFunctionEntry]

theorem FunctionCallManager.entry_pendingOf_other (m : FunctionCallManager)
    (tid ts fid dep t : Nat) (ht : t ≠ tid) :
    (m.processFunctionEntry tid ts fid dep).pendingOf t = m.pendingOf t := by
  simp [FunctionCallManager.processFunctionEntry, ht]

theorem FunctionCallManager.exit_of_nil (m : FunctionCallManager) (tid ts dep : Nat)
    (h : m.pendingOf tid = []) : m.processFunctionExit tid ts dep = (m, none) := by
  unfold FunctionCallManager.processFunctionExit
  rw [h]

theorem FunctionCallManager.exit_of_match (m : FunctionCallManager)
    (tid ts dep : Nat) (top : FunctionEntry) (rest : List FunctionEntry)
    (h : m.pendingOf tid = top :: rest) (hd : top.depth = dep) :
    m.processFunctionExit tid ts dep
      = (⟨fun t => if t = tid then rest else m.pendingOf t⟩,
          some ⟨top.function_id, top.timestamp, ts, dep⟩) := by
  unfold FunctionCallManager.processFunctionExit
  rw [h]
  simp [hd]

theorem FunctionCallManager.exit_of_mismatch (m : FunctionCallManager)
    (tid ts dep : Nat) (top : FunctionEntry) (rest : List FunctionEntry)
    (h : m.pendingOf tid = top :: rest) (hd : top.depth ≠ dep) :
    m.processFunctionExit tid ts dep = (m, none) := by
  unfold FunctionCallManager.processFunctionExit
  rw [h]
  simp [hd]

/-- C5: a function-entry at depth `d` followed by a function-exit at the same depth pops
the matching entry and emits exactly the `{function_id, start = entry ts, end = exit ts,
depth = d}` duration, restoring the per-thread stacks exactly; any emitted duration comes
from a top pending entry of exactly the exit's depth (entries and exits at different
depths are never paired); a mismatched exit emits nothing and leaves the manager
untouched; and in the nested scenario an inner entry/exit at depth `d+1` pairs only with
itself before the outer depth-`d` pair completes. -/
theorem functionCall_depth_matching_c5 (m : FunctionCallManager)
    (tid t1 t2 t3 t4 f0 f1 d : Nat) (hempty : m.pendingOf tid = []) :
    (((m.processFunctionEntry tid t1 f0 d).processFunctionExit tid t2 d).2
        = some ⟨f0, t1, t2, d⟩ ∧
      ((m.processFunctionEntry tid t1 f0 d).processFunctionExit tid t2 d).1.pendingOf
        = m.pendingOf) ∧
    (∀ mm : FunctionCallManager, ∀ m2 : FunctionCallManager, ∀ ts dep : Nat,
      ∀ dur : FunctionDuration, mm.processFunctionExit tid ts dep = (m2, some dur) →
        dur.depth = dep ∧
        mm.pendingOf tid = ⟨dur.start_ns, dur.function_id, dep⟩ :: m2.pendingOf tid) ∧
    (∀ mm : FunctionCallManager, ∀ ts dep : Nat,
      (mm.pendingOf tid = [] ∨
        ∃ e rest, mm.pendingOf tid = e :: rest ∧ e.depth ≠ dep) →
        mm.processFunctionExit tid ts dep = (mm, none)) ∧
    ((((m.processFunctionEntry tid t1 f0 d).processFunctionEntry tid t2 f1
          (d + 1)).processFunctionExit tid t3 (d + 1)).2 = some ⟨f1, t2, t3, d + 1⟩ ∧
      ((((m.processFunctionEntry tid t1 f0 d).processFunctionEntry tid t2 f1
          (d + 1)).processFunctionExit tid t3 (d + 1)).1.processFunctionExit tid t4 d).2
        = some ⟨f0, t1, t4, d⟩) := by
  have h1 : (m.processFunctionEntry tid t1 f0 d).pendingOf tid
      = ⟨t1, f0, d⟩ :: m.pendingOf tid :=
    FunctionCallManager.entry_pendingOf_same m tid t1 f0 d
  have hex1 := FunctionCallManager.exit_of_match (m.processFunctionEntry tid t1 f0 d)
    tid t2 d ⟨t1, f0, d⟩ (m.pendingOf tid) h1 rfl
  refine ⟨⟨?_, ?_⟩, ?_, ?_, ?_, ?_⟩
  · rw [hex1]
  · rw [hex1]
    funext t
    by_cases ht : t = tid
    · subst ht
      simp
    · simp only [ht, if_false]
      exact FunctionCallManager.entry_pendingOf_other m tid t1 f0 d t ht
  · intro mm m2 ts dep dur hex
    rcases htop : mm.pendingOf tid with _ | ⟨top, rest⟩
    · rw [FunctionCallManager.exit_of_nil mm tid ts dep htop] at hex
      simp at hex
    · obtain ⟨top1, top2, top3⟩ := top
      by_cases hd : top3 = dep
      · subst hd
        rw [FunctionCallManager.exit_of_match mm tid ts top3 ⟨top1, top2, top3⟩ rest htop
          rfl] at hex
        rw [Prod.mk.injEq] at hex
        obtain ⟨hm2, hdur⟩ := hex
        have hdur2 : dur = ⟨top2, top1, ts, top3⟩ := by
          simpa using hdur.symm
        subst hdur2
        refine ⟨rfl, ?_⟩
        rw [← hm2]
        simp
      · rw [FunctionCallManager.exit_of_mismatch mm tid ts dep ⟨top1, top2, top3⟩ rest htop
          (by simpa using hd)] at hex
        simp at hex
  · intro mm ts dep hmm
    rcases hmm with hnil | ⟨e, rest, hcons, hne⟩
    · exact FunctionCallManager.exit_of_nil mm tid ts dep hnil
    · exact FunctionCallManager.exit_of_mismatch mm tid ts dep e rest hcons hne
  · have h2 : ((m.processFunctionEntry tid t1 f0 d).processFunctionEntry tid t2 f1
        (d + 1)).pendingOf tid
        = ⟨t2, f1, d + 1⟩ :: (m.processFunctionEntry tid t1 f0 d).pendingOf tid :=
      FunctionCallManager.entry_pendingOf_same _ tid t2 f1 (d + 1)
    rw [FunctionCallManager.exit_of_match _ tid t3 (d + 1) ⟨t2, f1, d + 1⟩ _ h2 rfl]
  · have h2 : ((m.processFunctionEntry tid t1 f0 d).processFunctionEntry tid t2 f1
        (d + 1)).pendingOf tid
        = ⟨t2, f1, d + 1⟩ :: (m.processFunctionEntry tid t1 f0 d).pendingOf tid :=
      FunctionCallManager.entry_pendingOf_same _ tid t2 f1 (d + 1)
    rw [FunctionCallManager.exit_of_match _ tid t3 (d + 1) ⟨t2, f1, d + 1⟩ _ h2 rfl]
    have h3 : (⟨fun t => if t = tid
          then (m.processFunctionEntry tid t1 f0 d).pendingOf tid
          else ((m.processFunctionEntry tid t1 f0 d).processFunctionEntry tid t2 f1
            (d + 1)).pendingOf t⟩ : FunctionCallManager).pendingOf tid
        = ⟨t1, f0, d⟩ :: m.pendingOf tid := by
      simp [h1]
    rw [FunctionCallManager.exit_of_match _ tid t4 d ⟨t1, f0, d⟩ _ h3 rfl]

/-- Witness for C5 at thread 9 from the fresh manager: entry(t 10, fid 5, depth 0) then
exit(t 20, depth 0) emits the duration {5, 10, 20, 0}; in the nested scenario,
entry(10, fid 5, depth 0), entry(12, fid 6, depth 1), exit(15, depth 1) and exit(20,
depth 0) pair the depth-1 frames together and then the depth-0 frames together. -/
theorem functionCall_depth_matching_c5_witness :
    FunctionCallManager.initial.pendingOf 9 = [] ∧
    ((FunctionCallManager.initial.processFunctionEntry 9 10 5 0).processFunctionExit 9 20
        0).2 = some ⟨5, 10, 20, 0⟩ ∧
    ((((FunctionCallManager.initial.processFunctionEntry 9 10 5 0).processFunctionEntry 9
        12 6 1).processFunctionExit 9 15 1).1.processFunctionExit 9 20 0).2
      = some ⟨5, 10, 20, 0⟩ :=
  ⟨rfl,
    (functionCall_depth_matching_c5 FunctionCallManager.initial 9 10 20 15 20 5 6 0
      rfl).1.1,
    (functionCall_depth_matching_c5 FunctionCallManager.initial 9 10 12 15 20 5 6 0
      rfl).2.2.2.2⟩

/-! ## Interned callstack pool (spec 3 and 4.4; the interning implementation is not under
src/, so it is modelled from the spec). -/

/-- A call stack as its sequence of frames (instruction pointers). -/
abbrev CallstackFrames := List Nat

/-- An interned pool: the list of interned payloads in insertion order; the integer key of
a payload is its position in the list. -/
abbrev InternPool := List CallstackFrames

/-- Position of the first occurrence of a payload in the pool, if present (the
content-address lookup). -/
def poolLookup : InternPool → CallstackFrames → Option Nat
  | [], _ => none
  | p :: rest, frames =>
      if p = frames then some 0 else (poolLookup rest frames).map (· + 1)

/-- Modelled from the spec: submit one call stack to the content-addressed interned pool —
if an identical frame sequence was interned before, return its existing key and leave the
pool unchanged; otherwise append the payload once and return its fresh key. -/
def internCallstack (pool : InternPool) (frames : CallstackFrames) : Nat × InternPool :=
  match poolLookup pool frames with
  | some i => (i, pool)
  | none => (pool.length, pool ++ [frames])

/-- A session's sequence of submissions: the assigned keys in order, and the final pool. -/
def runIntern : InternPool → List CallstackFrames → List Nat × InternPool
  | pool, [] => ([], pool)
  | pool, f :: rest =>
      let r := internCallstack pool f
      let rr := runIntern r.2 rest
      (r.1 :: rr.1, rr.2)

theorem poolLookup_eq_none (pool : InternPool) (f : CallstackFrames) :
    poolLookup pool f = none ↔ f ∉ pool := by
  induction pool with
  | nil => simp [poolLookup]
  | cons p rest ih =>
      by_cases hp : p = f
      · simp [poolLookup, hp]
      · simp only [poolLookup, hp, if_false, Option.map_eq_none', ih, List.mem_cons]
        constructor
        · intro h hmem
          rcases hmem with h1 | h2
          · exact hp h1.symm
          · exact h h2
        · intro h hmem
          exact h (Or.inr hmem)

theorem poolLookup_get (pool : InternPool) (f : CallstackFrames) (i : Nat)
    (h : poolLookup pool f = some i) : pool.get? i = some f := by
  induction pool generalizing i with
  | nil => cases h
  | cons p rest ih =>
      by_cases hp : p = f
      · simp only [poolLookup, hp, if_true] at h
        cases h
        simp [hp]
      · simp only [poolLookup, hp, if_false, Option.map_eq_some'] at h
        obtain ⟨j, hj, rfl⟩ := h
        simpa using ih j hj

theorem internCallstack_key_get (pool : InternPool) (f : CallstackFrames) :
    (internCallstack pool f).2.get? (internCallstack pool f).1 = some f := by
  unfold internCallstack
  cases h : poolLookup pool f with
  | some i => simpa using poolLookup_get pool f i h
  | none => simp

theorem internCallstack_grows (pool : InternPool) (f : CallstackFrames) :
    ∃ ext, (internCallstack pool f).2 = pool ++ ext := by
  unfold internCallstack
  cases h : poolLookup pool f with
  | some i => exact ⟨[], by simp⟩
  | none => exact ⟨[f], rfl⟩

theorem internCallstack_nodup (pool : InternPool) (f : CallstackFrames)
    (h : pool.Nodup) : (internCallstack pool f).2.Nodup := by
  unfold internCallstack
  cases hl : poolLookup pool f with
  | some i => simpa using h
  | none =>
      have hf : f ∉ pool := (poolLookup_eq_none pool f).1 hl
      simp [List.nodup_append, h, hf]

theorem internCallstack_mem (pool : InternPool) (f x : CallstackFrames) :
    x ∈ (internCallstack pool f).2 ↔ x ∈ pool ∨ x = f := by
  unfold internCallstack
  cases hl : poolLookup pool f with
  | some i =>
      have hf : f ∈ pool := by
        by_contra hnot
        rw [(poolLookup_eq_none pool f).2 hnot] at hl
        cases hl
      simp only
      constructor
      · exact fun hx => Or.inl hx
      · intro hx
        rcases hx with hx | hx
        · exact hx
        · exact hx ▸ hf
  | none => simp

theorem nodup_get?_inj (l : InternPool) (hl : l.Nodup) (i j : Nat)
    (a : CallstackFrames) (hi : l.get? i = some a) (hj : l.get? j = some a) : i = j := by
  obtain ⟨hilt, hie⟩ := List.get?_eq_some.1 hi
  obtain ⟨hjlt, hje⟩ := List.get?_eq_some.1 hj
  have : (⟨i, hilt⟩ : Fin l.length) = ⟨j, hjlt⟩ :=
    (List.Nodup.get_inj_iff hl).1 (hie.trans hje.symm)
  exact congrArg Fin.val this

theorem runIntern_props (subs : List CallstackFrames) :
    ∀ pool : InternPool, pool.Nodup →
      (runIntern pool subs).2.Nodup ∧
      (∃ ext, (runIntern pool subs).2 = pool ++ ext) ∧
      (∀ x, x ∈ (runIntern pool subs).2 ↔ x ∈ pool ∨ x ∈ subs) ∧
      (runIntern pool subs).1.length = subs.length ∧
      (∀ pr ∈ subs.zip (runIntern pool subs).1,
        (runIntern pool subs).2.get? pr.2 = some pr.1) := by
  induction subs with
  | nil =>
      intro pool h
      refine ⟨h, ⟨[], by simp [runIntern]⟩, ?_, by simp [runIntern], by simp [runIntern]⟩
      intro x
      simp [runIntern]
  | cons f rest ih =>
      intro pool h
      have hstep : runIntern pool (f :: rest)
          = ((internCallstack pool f).1 :: (runIntern (internCallstack pool f).2 rest).1,
             (runIntern (internCallstack pool f).2 rest).2) := rfl
      have hnd1 : (internCallstack pool f).2.Nodup := internCallstack_nodup pool f h
      obtain ⟨ihnd, ⟨ext1, ihgrow⟩, ihmem, ihlen, ihget⟩ :=
        ih (internCallstack pool f).2 hnd1
      obtain ⟨ext0, hgrow0⟩ := internCallstack_grows pool f
      refine ⟨by rw [hstep]; exact ihnd, ?_, ?_, ?_, ?_⟩
      · exact ⟨ext0 ++ ext1, by rw [hstep]; simpa [hgrow0, List.append_assoc] using ihgrow⟩
      · intro x
        rw [hstep]
        simp only [List.mem_cons]
        rw [ihmem x, internCallstack_mem pool f x]
        constructor
        · rintro ((hx | hx) | hx)
          · exact Or.inl hx
          · exact Or.inr (Or.inl hx)
          · exact Or.inr (Or.inr hx)
        · rintro (hx | hx | hx)
          · exact Or.inl (Or.inl hx)
          · exact Or.inl (Or.inr hx)
          · exact Or.inr hx
      · rw [hstep]
        simpa using ihlen
      · intro pr hpr
        rw [hstep] at hpr ⊢
        simp only [List.zip_cons_cons, List.mem_cons] at hpr
        rcases hpr with hpr | hpr
        · subst hpr
          have hkey := internCallstack_key_get pool f
          have hlt : (internCallstack pool f).1 < (internCallstack pool f).2.length :=
            (List.get?_eq_some.1 hkey).1
          rw [ihgrow]
          simp only
          rw [List.get?_append hlt]
          exact hkey
        · exact ihget pr hpr

theorem runIntern_append_final (a b : List CallstackFrames) :
    ∀ pool : InternPool,
      (runIntern pool (a ++ b)).2 = (runIntern (runIntern pool a).2 b).2 := by
  induction a with
  | nil => intro pool; rfl
  | cons f rest ih => intro pool; simpa [runIntern] using ih (internCallstack pool f).2

/-- C7: interning is injective on content and idempotent.  Over any session of
submissions: every submission is assigned a key at which the final pool holds exactly its
frame sequence; two submissions receive the same key precisely when their frame sequences
are identical (so a differing sequence gets a new key); the pool holds one entry per
distinct submitted sequence (not per submission); and later submissions only ever extend
the pool — no entry is deleted or overwritten. -/
theorem internPool_content_addressed_c7 (subs more : List CallstackFrames) :
    (runIntern [] subs).1.length = subs.length ∧
    (∀ pr ∈ subs.zip (runIntern [] subs).1,
      (runIntern [] subs).2.get? pr.2 = some pr.1) ∧
    (∀ pr qr, pr ∈ subs.zip (runIntern [] subs).1 → qr ∈ subs.zip (runIntern [] subs).1 →
      (pr.1 = qr.1 ↔ pr.2 = qr.2)) ∧
    (runIntern [] subs).2.length = subs.dedup.length ∧
    (∃ ext, (runIntern [] (subs ++ more)).2 = (runIntern [] subs).2 ++ ext) := by
  obtain ⟨hnd, ⟨ext, hgrow⟩, hmem, hlen, hget⟩ := runIntern_props subs [] List.nodup_nil
  refine ⟨hlen, hget, ?_, ?_, ?_⟩
  · intro pr qr hpr hqr
    constructor
    · intro hco
      exact nodup_get?_inj (runIntern [] subs).2 hnd pr.2 qr.2 pr.1 (hget pr hpr)
        (hco ▸ hget qr hqr)
    · intro hkey
      have h1 := hget pr hpr
      have h2 := hget qr hqr
      rw [hkey, h2] at h1
      exact (Option.some.inj h1).symm
  · have hfin : (runIntern [] subs).2.toFinset = subs.toFinset := by
      ext x
      simp only [List.mem_toFinset]
      simpa using hmem x
    calc (runIntern [] subs).2.length
        = (runIntern [] subs).2.toFinset.card := (List.toFinset_card_of_nodup hnd).symm
      _ = subs.toFinset.card := by rw [hfin]
      _ = subs.dedup.length := List.card_toFinset subs
  · rw [runIntern_append_final subs more []]
    obtain ⟨hnd2, ⟨ext2, hgrow2⟩, _, _, _⟩ :=
      runIntern_props more (runIntern [] subs).2 hnd
    exact ⟨ext2, hgrow2⟩

/-- Witness for C7: submitting [[1,2],[3],[1,2]] assigns three keys but interned entries
count 2, the number of distinct sequences. -/
theorem internPool_content_addressed_c7_witness :
    (runIntern [] [[1, 2], [3], [1, 2]]).1.length = [[1, 2], [3], [1, 2]].length ∧
    (runIntern [] [[1, 2], [3], [1, 2]]).2.length
      = ([[1, 2], [3], [1, 2]] : List CallstackFrames).dedup.length :=
  ⟨(internPool_content_addressed_c7 [[1, 2], [3], [1, 2]] [[4]]).1,
    (internPool_content_addressed_c7 [[1, 2], [3], [1, 2]] [[4]]).2.2.2.1⟩

/-! ## Event Queue / Orderer (spec 4.1; the LinuxTracing PerfEventQueue and
PerfEventProcessor sources are not under src/, so this component is modelled from the
spec). -/

/-- Modelled from the spec: per-source state in the source registry — the FIFO queue of
buffered (timestamp, payload) records, the timestamp of the last record pushed by this
source, and whether the source has been explicitly marked closed. -/
structure SourceState where
  queue : List (Nat × Nat)
  lastTs : Option Nat
  closed : Bool
deriving DecidableEq

/-- Modelled from the spec: the Event Queue / Orderer — a fixed registry of sources
created at capture-session start, indexed 0, ..., numSources - 1. -/
structure EventQueue where
  numSources : Nat
  src : Nat → SourceState

/-- A fresh orderer with `k` registered sources, all active with empty queues. -/
def EventQueue.initial (k : Nat) : EventQueue :=
  ⟨k, fun _ => ⟨[], none, false⟩⟩

/-- Replace the state of source `i`. -/
def EventQueue.setSrc (q : EventQueue) (i : Nat) (s : SourceState) : EventQueue :=
  ⟨q.numSources, fun j => if j = i then s else q.src j⟩

/-- Modelled from the spec: `Push(source_id, record)`.  A push whose timestamp is older
than the source's own last pushed timestamp is the fatal ordering-violation check
(result `none`); otherwise the record is appended to the source's FIFO queue and the
last-pushed timestamp is updated.  A push for an unregistered source id is also fatal. -/
def EventQueue.push (q : EventQueue) (i ts payload : Nat) : Option EventQueue :=
  if i < q.numSources then
    match (q.src i).lastTs with
    | some u =>
        if ts < u then none
        else some (q.setSrc i
            ⟨(q.src i).queue ++ [(ts, payload)], some ts, (q.src i).closed⟩)
    | none =>
        some (q.setSrc i ⟨(q.src i).queue ++ [(ts, payload)], some ts, (q.src i).closed⟩)
  else none

/-- Modelled from the spec: mark a source closed (explicit end of stream). -/
def EventQueue.markClosed (q : EventQueue) (i : Nat) : EventQueue :=
  if i < q.numSources then q.setSrc i ⟨(q.src i).queue, (q.src i).lastTs, true⟩ else q

/-- Strict lexicographic order on (timestamp, source id) pairs — the deterministic
tie-break by source id the spec prescribes. -/
def lexBefore (a b : Nat × Nat) : Prop :=
  a.1 < b.1 ∨ (a.1 = b.1 ∧ a.2 < b.2)

instance (a b : Nat × Nat) : Decidable (lexBefore a b) := by
  unfold lexBefore
  exact inferInstance

theorem lexBefore_irrefl (a : Nat × Nat) : ¬ lexBefore a a := by
  unfold lexBefore
  omega

theorem lexBefore_asymm (a b : Nat × Nat) (h : lexBefore a b) : ¬ lexBefore b a := by
  unfold lexBefore at *
  omega

theorem lexBefore_of_not_of_ne (a b : Nat × Nat) (hne : a.2 ≠ b.2)
    (h : ¬ lexBefore b a) : lexBefore a b := by
  unfold lexBefore at *
  omega

theorem lexBefore_not_trans (a b c : Nat × Nat) (h1 : ¬ lexBefore a b)
    (h2 : ¬ lexBefore b c) : ¬ lexBefore a c := by
  unfold lexBefore at *
  omega

theorem lexBefore_ts_le (a b : Nat × Nat) (h : lexBefore a b) : a.1 ≤ b.1 := by
  unfold lexBefore at h
  omega

/-- The lexicographically least element of a list of (timestamp, source id) pairs. -/
def lexMin : List (Nat × Nat) → Option (Nat × Nat)
  | [] => none
  | a :: rest =>
      match lexMin rest with
      | none => some a
      | some b => if lexBefore b a then some b else some a

theorem lexMin_isSome (l : List (Nat × Nat)) (h : l ≠ []) : ∃ m, lexMin l = some m := by
  cases l with
  | nil => exact absurd rfl h
  | cons a rest =>
      unfold lexMin
      cases lexMin rest with
      | none => exact ⟨a, rfl⟩
      | some b =>
          by_cases hb : lexBefore b a
          · exact ⟨b, by simp [hb]⟩
          · exact ⟨a, by simp [hb]⟩

theorem lexMin_mem (l : List (Nat × Nat)) (m : Nat × Nat) (h : lexMin l = some m) :
    m ∈ l := by
  induction l generalizing m with
  | nil => cases h
  | cons a rest ih =>
      unfold lexMin at h
      split at h
      · cases h
        exact List.mem_cons_self a rest
      · rename_i b hr
        split at h
        · cases h
          exact List.mem_cons_of_mem a (ih _ hr)
        · cases h
          exact List.mem_cons_self a rest

theorem lexMin_least (l : List (Nat × Nat)) (m : Nat × Nat) (h : lexMin l = some m) :
    ∀ x ∈ l, ¬ lexBefore x m := by
  induction l generalizing m with
  | nil => cases h
  | cons a rest ih =>
      unfold lexMin at h
      split at h
      · rename_i hr
        cases h
        intro x hx
        rcases List.mem_cons.1 hx with hx | hx
        · subst hx
          exact lexBefore_irrefl _
        · cases rest with
          | nil => cases hx
          | cons c tl =>
              exfalso
              obtain ⟨w, hw⟩ := lexMin_isSome (c :: tl) (by simp)
              rw [hw] at hr
              cases hr
      · rename_i b hr
        split at h
        · rename_i hb
          cases h
          intro x hx
          rcases List.mem_cons.1 hx with hx | hx
          · subst hx
            exact lexBefore_asymm _ _ hb
          · exact ih _ hr x hx
        · rename_i hb
          cases h
          intro x hx
          rcases List.mem_cons.1 hx with hx | hx
          · subst hx
            exact lexBefore_irrefl _
          · exact lexBefore_not_trans x b _ (ih b hr x hx) hb

/-- The fronts of all sources with nonempty queues, as (front timestamp, source id). -/
def EventQueue.fronts (q : EventQueue) : List (Nat × Nat) :=
  (List.range q.numSources).filterMap fun i =>
    match (q.src i).queue with
    | [] => none
    | r :: _ => some (r.1, i)

theorem fronts_mem_iff (q : EventQueue) (a : Nat × Nat) :
    a ∈ q.fronts ↔
      a.2 < q.numSources ∧ ∃ p rest, (q.src a.2).queue = (a.1, p) :: rest := by
  unfold EventQueue.fronts
  rw [List.mem_filterMap]
  constructor
  · rintro ⟨i, hi, hf⟩
    rw [List.mem_range] at hi
    revert hf
    cases hq : (q.src i).queue with
    | nil => intro hf; cases hf
    | cons r rest =>
        intro hf
        obtain ⟨r1, r2⟩ := r
        cases hf
        exact ⟨hi, r2, rest, hq⟩
  · rintro ⟨hlt, p, rest, hq⟩
    refine ⟨a.2, List.mem_range.2 hlt, ?_⟩
    rw [hq]

/-- Modelled from the spec: does source `j` permit popping the candidate `c` (the
lexicographically least front)?  The candidate's own source and every closed source
permit it; an active source with a nonempty queue permits it only if the candidate
precedes its front; an active source with an empty queue permits it only if the candidate
precedes (last-known-front, j) — and an active source that has never pushed blocks every
pop. -/
def EventQueue.allows (q : EventQueue) (c : Nat × Nat) (j : Nat) : Bool :=
  decide (j = c.2) || (q.src j).closed ||
    (match (q.src j).queue with
     | r :: _ => decide (lexBefore c (r.1, j))
     | [] =>
         match (q.src j).lastTs with
         | some u => decide (lexBefore c (u, j))
         | none => false)

/-- Modelled from the spec: `PopIfSafe`.  The candidate is the lexicographically least
(front timestamp, source id) pair over all buffered fronts; its record is returned (as
(timestamp, source id, payload)) and removed if and only if every source permits it —
i.e. no other active source can later produce anything preceding it. -/
def EventQueue.popIfSafe (q : EventQueue) : Option ((Nat × Nat × Nat) × EventQueue) :=
  match lexMin q.fronts with
  | none => none
  | some c =>
      if (List.range q.numSources).all (fun j => q.allows c j) then
        match (q.src c.2).queue with
        | r :: rest =>
            some ((r.1, c.2, r.2),
              q.setSrc c.2 ⟨rest, (q.src c.2).lastTs, (q.src c.2).closed⟩)
        | [] => none
      else none

theorem popIfSafe_spec (q : EventQueue) (t i p : Nat) (q2 : EventQueue)
    (hp : q.popIfSafe = some ((t, i, p), q2)) :
    i < q.numSources ∧
    ∃ rest, (q.src i).queue = (t, p) :: rest ∧
      q2 = q.setSrc i ⟨rest, (q.src i).lastTs, (q.src i).closed⟩ ∧
      lexMin q.fronts = some (t, i) ∧
      ∀ j, j < q.numSources → q.allows (t, i) j = true := by
  unfold EventQueue.popIfSafe at hp
  split at hp
  · cases hp
  · rename_i c hmin
    obtain ⟨c1, c2⟩ := c
    dsimp only at hp
    split at hp
    · rename_i hall
      split at hp
      · rename_i r rest hq
        obtain ⟨r1, r2⟩ := r
        simp only [Option.some.injEq, Prod.mk.injEq] at hp
        obtain ⟨⟨ht, hi, hpay⟩, hq2⟩ := hp
        have hc := lexMin_mem q.fronts (c1, c2) hmin
        rw [fronts_mem_iff] at hc
        obtain ⟨hlt, pf, restf, hqf⟩ := hc
        rw [hqf] at hq
        simp only [List.cons.injEq, Prod.mk.injEq] at hq
        obtain ⟨⟨hr1, hr2⟩, hrest⟩ := hq
        subst hi
        subst ht
        subst hpay
        subst hr1
        subst hr2
        subst hrest
        refine ⟨hlt, restf, hqf, hq2.symm, hmin, ?_⟩
        intro j hj
        exact List.all_eq_true.1 hall j (List.mem_range.2 hj)
      · cases hp
    · cases hp

theorem setSrc_src (q : EventQueue) (i : Nat) (s : SourceState) (j : Nat) :
    (q.setSrc i s).src j = if j = i then s else q.src j := rfl

theorem setSrc_numSources (q : EventQueue) (i : Nat) (s : SourceState) :
    (q.setSrc i s).numSources = q.numSources := rfl

/-- The structural invariant of the orderer relative to `m`, the timestamp of the last
record popped so far (if any): per-source queues are sorted and bounded by the source's
last-pushed timestamp, unregistered slots are empty, and neither a buffered record nor
anything an active source could still produce precedes `m`. -/
structure QueueInv (q : EventQueue) (m : Option Nat) : Prop where
  sorted : ∀ i, List.Pairwise (fun a b : Nat × Nat => a.1 ≤ b.1) (q.src i).queue
  bounded : ∀ i, ∀ r ∈ (q.src i).queue, ∃ u, (q.src i).lastTs = some u ∧ r.1 ≤ u
  outside : ∀ i, q.numSources ≤ i → (q.src i).queue = []
  popLeQueue : ∀ i, ∀ r ∈ (q.src i).queue, ∀ s, m = some s → s ≤ r.1
  popLeLast : ∀ i, i < q.numSources → (q.src i).closed = false → ∀ s, m = some s →
      ∃ u, (q.src i).lastTs = some u ∧ s ≤ u

theorem queueInv_initial (k : Nat) : QueueInv (EventQueue.initial k) none := by
  constructor <;> simp [EventQueue.initial]

theorem push_eq_of_le (q : EventQueue) (i ts payload : Nat) (hi : i < q.numSources)
    (hmono : ∀ u, (q.src i).lastTs = some u → u ≤ ts) :
    q.push i ts payload = some (q.setSrc i
      ⟨(q.src i).queue ++ [(ts, payload)], some ts, (q.src i).closed⟩) := by
  unfold EventQueue.push
  rw [if_pos hi]
  cases hl : (q.src i).lastTs with
  | none => rfl
  | some u =>
      have := hmono u hl
      exact if_neg (by omega)

theorem queueInv_push (q : EventQueue) (m : Option Nat) (i ts payload : Nat)
    (hinv : QueueInv q m) (hi : i < q.numSources)
    (hmono : ∀ u, (q.src i).lastTs = some u → u ≤ ts)
    (hopen : (q.src i).closed = false) :
    QueueInv
      (q.setSrc i ⟨(q.src i).queue ++ [(ts, payload)], some ts, (q.src i).closed⟩) m := by
  have hle : ∀ r ∈ (q.src i).queue, r.1 ≤ ts := by
    intro r hr
    obtain ⟨u, hu, hru⟩ := hinv.bounded i r hr
    have := hmono u hu
    omega
  refine ⟨?_, ?_, ?_, ?_, ?_⟩
  · intro j
    rw [setSrc_src]
    by_cases hj : j = i
    · subst hj
      rw [if_pos rfl]
      rw [List.pairwise_append]
      refine ⟨hinv.sorted j, by simp, ?_⟩
      intro a ha b hb
      rw [List.mem_singleton] at hb
      subst hb
      exact hle a ha
    · rw [if_neg hj]
      exact hinv.sorted j
  · intro j r hr
    rw [setSrc_src] at hr ⊢
    by_cases hj : j = i
    · subst hj
      rw [if_pos rfl] at hr ⊢
      rcases List.mem_append.1 hr with hr | hr
      · exact ⟨ts, rfl, hle r hr⟩
      · rw [List.mem_singleton] at hr
        subst hr
        exact ⟨ts, rfl, le_refl ts⟩
    · rw [if_neg hj] at hr ⊢
      exact hinv.bounded j r hr
  · intro j hjn
    rw [setSrc_numSources] at hjn
    rw [setSrc_src, if_neg (by omega)]
    exact hinv.outside j hjn
  · intro j r hr s hs
    rw [setSrc_src] at hr
    by_cases hj : j = i
    · subst hj
      rw [if_pos rfl] at hr
      rcases List.mem_append.1 hr with hr | hr
      · exact hinv.popLeQueue j r hr s hs
      · rw [List.mem_singleton] at hr
        subst hr
        obtain ⟨u, hu, hsu⟩ := hinv.popLeLast j hi hopen s hs
        have := hmono u hu
        simp only
        omega
    · rw [if_neg hj] at hr
      exact hinv.popLeQueue j r hr s hs
  · intro j hjn hcl s hs
    rw [setSrc_numSources] at hjn
    rw [setSrc_src] at hcl ⊢
    by_cases hj : j = i
    · subst hj
      rw [if_pos rfl]
      obtain ⟨u, hu, hsu⟩ := hinv.popLeLast j hjn hopen s hs
      have := hmono u hu
      exact ⟨ts, rfl, by omega⟩
    · rw [if_neg hj] at hcl ⊢
      exact hinv.popLeLast j hjn hcl s hs

theorem queueInv_markClosed (q : EventQueue) (m : Option Nat) (i : Nat)
    (hinv : QueueInv q m) : QueueInv (q.markClosed i) m := by
  unfold EventQueue.markClosed
  by_cases hi : i < q.numSources
  · rw [if_pos hi]
    refine ⟨?_, ?_, ?_, ?_, ?_⟩
    · intro j
      rw [setSrc_src]
      by_cases hj : j = i
      · subst hj
        rw [if_pos rfl]
        exact hinv.sorted j
      · rw [if_neg hj]
        exact hinv.sorted j
    · intro j r hr
      rw [setSrc_src] at hr ⊢
      by_cases hj : j = i
      · subst hj
        rw [if_pos rfl] at hr ⊢
        exact hinv.bounded j r hr
      · rw [if_neg hj] at hr ⊢
        exact hinv.bounded j r hr
    · intro j hjn
      rw [setSrc_numSources] at hjn
      rw [setSrc_src, if_neg (by omega)]
      exact hinv.outside j hjn
    · intro j r hr s hs
      rw [setSrc_src] at hr
      by_cases hj : j = i
      · subst hj
        rw [if_pos rfl] at hr
        exact hinv.popLeQueue j r hr s hs
      · rw [if_neg hj] at hr
        exact hinv.popLeQueue j r hr s hs
    · intro j hjn hcl s hs
      rw [setSrc_numSources] at hjn
      rw [setSrc_src] at hcl ⊢
      by_cases hj : j = i
      · subst hj
        rw [if_pos rfl] at hcl
        cases hcl
      · rw [if_neg hj] at hcl ⊢
        exact hinv.popLeLast j hjn hcl s hs
  · rw [if_neg hi]
    exact hinv

theorem queueInv_pop (q q2 : EventQueue) (m : Option Nat) (t i p : Nat)
    (hinv : QueueInv q m) (hp : q.popIfSafe = some ((t, i, p), q2)) :
    QueueInv q2 (some t) ∧ (∀ s, m = some s → s ≤ t) := by
  obtain ⟨hi, rest, hq, hq2, hmin, hall⟩ := popIfSafe_spec q t i p q2 hp
  subst hq2
  have hmemhead : (t, p) ∈ (q.src i).queue := by
    rw [hq]
    exact List.mem_cons_self _ _
  have hmbound : ∀ s, m = some s → s ≤ t := fun s hs =>
    hinv.popLeQueue i (t, p) hmemhead s hs
  have hsort_i := hinv.sorted i
  rw [hq] at hsort_i
  have hhead := (List.pairwise_cons.1 hsort_i).1
  have htail := (List.pairwise_cons.1 hsort_i).2
  have hfrontle : ∀ j, j ≠ i → ∀ rj : Nat × Nat, ∀ restj : List (Nat × Nat),
      (q.src j).queue = rj :: restj → t ≤ rj.1 := by
    intro j hj rj restj hqj
    obtain ⟨rj1, rj2⟩ := rj
    have hjn : j < q.numSources := by
      by_contra hge
      rw [hinv.outside j (by omega)] at hqj
      cases hqj
    have hmem : ((rj1, j) : Nat × Nat) ∈ q.fronts := by
      rw [fronts_mem_iff]
      exact ⟨hjn, rj2, restj, hqj⟩
    have hnb := lexMin_least q.fronts (t, i) hmin (rj1, j) hmem
    have hlb := lexBefore_of_not_of_ne (t, i) (rj1, j) (Ne.symm hj) hnb
    exact lexBefore_ts_le _ _ hlb
  refine ⟨⟨?_, ?_, ?_, ?_, ?_⟩, hmbound⟩
  · intro j
    rw [setSrc_src]
    by_cases hj : j = i
    · subst hj
      rw [if_pos rfl]
      exact htail
    · rw [if_neg hj]
      exact hinv.sorted j
  · intro j r hr
    rw [setSrc_src] at hr ⊢
    by_cases hj : j = i
    · subst hj
      rw [if_pos rfl] at hr ⊢
      exact hinv.bounded j r (by rw [hq]; exact List.mem_cons_of_mem _ hr)
    · rw [if_neg hj] at hr ⊢
      exact hinv.bounded j r hr
  · intro j hjn
    rw [setSrc_numSources] at hjn
    rw [setSrc_src, if_neg (by omega)]
    exact hinv.outside j hjn
  · intro j r hr s hs
    cases hs
    rw [setSrc_src] at hr
    by_cases hj : j = i
    · subst hj
      rw [if_pos rfl] at hr
      exact hhead r hr
    · rw [if_neg hj] at hr
      cases hqj : (q.src j).queue with
      | nil =>
          rw [hqj] at hr
          cases hr
      | cons rj restj =>
          have ht1 := hfrontle j hj rj restj hqj
          rw [hqj] at hr
          rcases List.mem_cons.1 hr with hr | hr
          · subst hr
            exact ht1
          · have hs2 := hinv.sorted j
            rw [hqj] at hs2
            have h2 := (List.pairwise_cons.1 hs2).1 r hr
            omega
  · intro j hjn hcl s hs
    cases hs
    rw [setSrc_numSources] at hjn
    rw [setSrc_src] at hcl ⊢
    by_cases hj : j = i
    · subst hj
      rw [if_pos rfl] at hcl ⊢
      obtain ⟨u, hu, htu⟩ := hinv.bounded j (t, p) hmemhead
      exact ⟨u, hu, htu⟩
    · rw [if_neg hj] at hcl ⊢
      have hA := hall j hjn
      unfold EventQueue.allows at hA
      have hji : decide (j = ((t, i) : Nat × Nat).2) = false := by
        simp [hj]
      rw [hji] at hA
      rw [hcl] at hA
      simp only [Bool.false_or] at hA
      cases hqj : (q.src j).queue with
      | cons rj restj =>
          obtain ⟨u, hu, hru⟩ := hinv.bounded j rj (by rw [hqj]; exact List.mem_cons_self _ _)
          have ht1 := hfrontle j hj rj restj hqj
          exact ⟨u, hu, by omega⟩
      | nil =>
          rw [hqj] at hA
          cases hu : (q.src j).lastTs with
          | none =>
              rw [hu] at hA
              cases hA
          | some u =>
              rw [hu] at hA
              simp only [decide_eq_true_eq] at hA
              exact ⟨u, rfl, lexBefore_ts_le _ _ hA⟩

/-- One operation applied to the orderer. -/
inductive QueueOp where
  | push (sourceId ts payload : Nat)
  | close (sourceId : Nat)
  | pop
deriving DecidableEq

/-- Modelled from the spec: does the producer contract admit `op` in the current state?
A push must target a registered, still-open source with a timestamp no older than that
source's own last push; a close must target a registered source; pops are always
admitted. -/
def EventQueue.admits (q : EventQueue) : QueueOp → Bool
  | .push i ts _ =>
      decide (i < q.numSources) && !(q.src i).closed &&
        (match (q.src i).lastTs with
         | some u => decide (u ≤ ts)
         | none => true)
  | .close i => decide (i < q.numSources)
  | .pop => true

/-- A run of the orderer: the queue, the records returned by successful pops in order,
and whether a fatal check has fired. -/
structure QueueRun where
  queue : EventQueue
  popped : List (Nat × Nat × Nat)
  fatal : Bool

/-- The run at capture-session start, with `k` registered sources. -/
def QueueRun.start (k : Nat) : QueueRun := ⟨EventQueue.initial k, [], false⟩

/-- Apply one operation.  After a fatal check everything is frozen; a `PopIfSafe` that
returns nothing (no record safe yet) is a no-op. -/
def QueueRun.step (rs : QueueRun) : QueueOp → QueueRun
  | .push i ts payload =>
      if rs.fatal then rs else
      match rs.queue.push i ts payload with
      | some q => ⟨q, rs.popped, false⟩
      | none => ⟨rs.queue, rs.popped, true⟩
  | .close i => if rs.fatal then rs else ⟨rs.queue.markClosed i, rs.popped, false⟩
  | .pop =>
      if rs.fatal then rs else
      match rs.queue.popIfSafe with
      | some (r, q) => ⟨q, rs.popped ++ [r], false⟩
      | none => rs

/-- Apply a trace of operations in order. -/
def QueueRun.run (rs : QueueRun) (ops : List QueueOp) : QueueRun :=
  ops.foldl QueueRun.step rs

/-- All operations of the trace are admitted by the producer contract, step by step. -/
def QueueRun.goodTrace : QueueRun → List QueueOp → Bool
  | _, [] => true
  | rs, op :: ops => rs.queue.admits op && QueueRun.goodTrace (rs.step op) ops

theorem step_push_eq (rs : QueueRun) (i ts payload : Nat) (hf : rs.fatal = false)
    (hadm : rs.queue.admits (QueueOp.push i ts payload) = true) :
    rs.step (QueueOp.push i ts payload)
      = ⟨rs.queue.setSrc i ⟨(rs.queue.src i).queue ++ [(ts, payload)], some ts,
          (rs.queue.src i).closed⟩, rs.popped, false⟩ ∧
    i < rs.queue.numSources ∧ (rs.queue.src i).closed = false ∧
    ∀ u, (rs.queue.src i).lastTs = some u → u ≤ ts := by
  have hspec : i < rs.queue.numSources ∧ (rs.queue.src i).closed = false ∧
      ∀ u, (rs.queue.src i).lastTs = some u → u ≤ ts := by
    unfold EventQueue.admits at hadm
    simp only [Bool.and_eq_true, decide_eq_true_eq, Bool.not_eq_true'] at hadm
    obtain ⟨⟨h1, h2⟩, h3⟩ := hadm
    refine ⟨h1, h2, ?_⟩
    intro u hu
    rw [hu] at h3
    simpa using h3
  obtain ⟨h1, h2, h3⟩ := hspec
  refine ⟨?_, h1, h2, h3⟩
  have hpush := push_eq_of_le rs.queue i ts payload h1 h3
  simp only [QueueRun.step]
  rw [hf, hpush]
  rfl

theorem step_close_eq (rs : QueueRun) (i : Nat) (hf : rs.fatal = false) :
    rs.step (QueueOp.close i) = ⟨rs.queue.markClosed i, rs.popped, false⟩ := by
  simp only [QueueRun.step]
  rw [hf]
  rfl

theorem step_pop_some (rs : QueueRun) (r : Nat × Nat × Nat) (q2 : EventQueue)
    (hf : rs.fatal = false) (hp : rs.queue.popIfSafe = some (r, q2)) :
    rs.step QueueOp.pop = ⟨q2, rs.popped ++ [r], false⟩ := by
  simp only [QueueRun.step]
  rw [hf, hp]
  rfl

theorem step_pop_none (rs : QueueRun) (hf : rs.fatal = false)
    (hp : rs.queue.popIfSafe = none) : rs.step QueueOp.pop = rs := by
  simp only [QueueRun.step]
  rw [hf, hp]
  rfl

theorem step_fatal (rs : QueueRun) (op : QueueOp) (hadm : rs.queue.admits op = true)
    (hf : rs.fatal = false) : (rs.step op).fatal = false := by
  cases op with
  | push i ts payload =>
      obtain ⟨heq, _, _, _⟩ := step_push_eq rs i ts payload hf hadm
      rw [heq]
  | close i => rw [step_close_eq rs i hf]
  | pop =>
      cases hp : rs.queue.popIfSafe with
      | none =>
          rw [step_pop_none rs hf hp]
          exact hf
      | some rq =>
          obtain ⟨r, q2⟩ := rq
          rw [step_pop_some rs r q2 hf hp]

theorem push_numSources (q : EventQueue) (i ts payload : Nat) (q2 : EventQueue)
    (h : q.push i ts payload = some q2) : q2.numSources = q.numSources := by
  unfold EventQueue.push at h
  split at h
  · split at h
    · split at h
      · cases h
      · cases h
        rfl
    · cases h
      rfl
  · cases h

theorem markClosed_numSources (q : EventQueue) (i : Nat) :
    (q.markClosed i).numSources = q.numSources := by
  unfold EventQueue.markClosed
  split <;> rfl

theorem step_numSources (rs : QueueRun) (op : QueueOp) :
    (rs.step op).queue.numSources = rs.queue.numSources := by
  cases op with
  | push i ts payload =>
      simp only [QueueRun.step]
      by_cases hf : rs.fatal
      · rw [if_pos hf]
      · rw [if_neg hf]
        cases hp : rs.queue.push i ts payload with
        | none => rfl
        | some q => exact push_numSources rs.queue i ts payload q hp
  | close i =>
      simp only [QueueRun.step]
      by_cases hf : rs.fatal
      · rw [if_pos hf]
      · rw [if_neg hf]
        exact markClosed_numSources rs.queue i
  | pop =>
      simp only [QueueRun.step]
      by_cases hf : rs.fatal
      · rw [if_pos hf]
      · rw [if_neg hf]
        cases hp : rs.queue.popIfSafe with
        | none => rfl
        | some rq =>
            obtain ⟨⟨t, i, p⟩, q2⟩ := rq
            obtain ⟨_, _, _, hq2, _⟩ := popIfSafe_spec rs.queue t i p q2 hp
            subst hq2
            rfl

theorem run_numSources (ops : List QueueOp) :
    ∀ rs : QueueRun, (rs.run ops).queue.numSources = rs.queue.numSources := by
  induction ops with
  | nil => intro rs; rfl
  | cons op rest ih =>
      intro rs
      exact (ih (rs.step op)).trans (step_numSources rs op)

/-- The run invariant: no fatal check has fired, the popped timestamps are non-decreasing,
and the orderer satisfies the structural invariant relative to the last popped
timestamp. -/
def RunInv (rs : QueueRun) : Prop :=
  rs.fatal = false ∧
  List.Chain' (· ≤ ·) (rs.popped.map fun r => r.1) ∧
  QueueInv rs.queue ((rs.popped.map fun r => r.1).getLast?)

theorem runInv_start (k : Nat) : RunInv (QueueRun.start k) :=
  ⟨rfl, List.chain'_nil, queueInv_initial k⟩

theorem runInv_step (rs : QueueRun) (op : QueueOp)
    (hadm : rs.queue.admits op = true) (hinv : RunInv rs) : RunInv (rs.step op) := by
  obtain ⟨hf, hch, hq⟩ := hinv
  cases op with
  | push i ts payload =>
      obtain ⟨heq, h1, h2, h3⟩ := step_push_eq rs i ts payload hf hadm
      rw [heq]
      exact ⟨rfl, hch, queueInv_push rs.queue _ i ts payload hq h1 h3 h2⟩
  | close i =>
      rw [step_close_eq rs i hf]
      exact ⟨rfl, hch, queueInv_markClosed rs.queue _ i hq⟩
  | pop =>
      cases hp : rs.queue.popIfSafe with
      | none =>
          rw [step_pop_none rs hf hp]
          exact ⟨hf, hch, hq⟩
      | some rq =>
          obtain ⟨⟨t, i, p⟩, q2⟩ := rq
          rw [step_pop_some rs (t, i, p) q2 hf hp]
          obtain ⟨hq2, hmle⟩ := queueInv_pop rs.queue q2 _ t i p hq hp
          refine ⟨rfl, ?_, ?_⟩
          · show List.Chain' (· ≤ ·) ((rs.popped ++ [(t, i, p)]).map fun r => r.1)
            rw [List.map_append]
            rw [List.chain'_append]
            refine ⟨hch, by simp, ?_⟩
            intro x hx y hy
            simp only [List.map_cons, List.map_nil, List.head?_cons, Option.mem_def,
              Option.some.injEq] at hy
            subst hy
            exact hmle x (Option.mem_def.1 hx)
          · show QueueInv q2 (((rs.popped ++ [(t, i, p)]).map fun r => r.1).getLast?)
            rw [List.map_append]
            simp only [List.map_cons, List.map_nil]
            rw [List.getLast?_concat]
            exact hq2

theorem runInv_run (ops : List QueueOp) :
    ∀ rs : QueueRun, rs.goodTrace ops = true → RunInv rs → RunInv (rs.run ops) := by
  induction ops with
  | nil =>
      intro rs _ h
      exact h
  | cons op rest ih =>
      intro rs hg h
      simp only [QueueRun.goodTrace, Bool.and_eq_true] at hg
      exact ih (rs.step op) hg.2 (runInv_step rs op hg.1 h)

/-- All records currently buffered across all sources, as (timestamp, source id,
payload). -/
def EventQueue.buffered (q : EventQueue) : List (Nat × Nat × Nat) :=
  (List.range q.numSources).flatMap fun i => (q.src i).queue.map fun r => (r.1, i, r.2)

/-- The records pushed by a trace, in order, as (timestamp, source id, payload). -/
def pushRecords (ops : List QueueOp) : List (Nat × Nat × Nat) :=
  ops.filterMap fun op =>
    match op with
    | .push i ts payload => some (ts, i, payload)
    | _ => none

theorem flatMap_congr_on (l : List Nat) (f g : Nat → List (Nat × Nat × Nat))
    (h : ∀ a ∈ l, f a = g a) : l.flatMap f = l.flatMap g := by
  induction l with
  | nil => rfl
  | cons a t ih =>
      simp only [List.flatMap_cons]
      rw [h a (List.mem_cons_self a t), ih fun b hb => h b (List.mem_cons_of_mem a hb)]

theorem flatMap_range_update (n i : Nat) (hi : i < n)
    (f : Nat → List (Nat × Nat × Nat)) (l : List (Nat × Nat × Nat)) :
    (↑((List.range n).flatMap fun j => if j = i then l else f j)
        : Multiset (Nat × Nat × Nat)) + ↑(f i)
      = ↑((List.range n).flatMap f) + ↑l := by
  induction n with
  | zero => omega
  | succ n ih =>
      rw [List.range_succ, List.flatMap_append, List.flatMap_append]
      by_cases hin : i = n
      · subst hin
        have hcong : ((List.range i).flatMap fun j => if j = i then l else f j)
            = (List.range i).flatMap f := by
          apply flatMap_congr_on
          intro a ha
          rw [List.mem_range] at ha
          rw [if_neg (by omega)]
        rw [hcong]
        have h1 : ([i].flatMap fun j => if j = i then l else f j) = l ++ [].flatMap f := by
          simp
        have h2 : [i].flatMap f = f i ++ [].flatMap f := by simp
        simp only [List.flatMap_nil, List.append_nil] at h1 h2
        rw [h1, h2]
        rw [← Multiset.coe_add, ← Multiset.coe_add]
        abel
      · have hlt : i < n := by omega
        have h1 : ([n].flatMap fun j => if j = i then l else f j) = f n := by
          simp only [List.flatMap_cons, List.flatMap_nil, List.append_nil]
          rw [if_neg (fun hh => hin hh.symm)]
        have h2 : [n].flatMap f = f n := by
          simp
        rw [h1, h2]
        have key := ih hlt
        rw [← Multiset.coe_add, ← Multiset.coe_add]
        calc (↑((List.range n).flatMap fun j => if j = i then l else f j)
                : Multiset (Nat × Nat × Nat)) + ↑(f n) + ↑(f i)
            = (↑((List.range n).flatMap fun j => if j = i then l else f j)
                : Multiset (Nat × Nat × Nat)) + ↑(f i) + ↑(f n) := by abel
          _ = ↑((List.range n).flatMap f) + ↑l + ↑(f n) := by rw [key]
          _ = ↑((List.range n).flatMap f) + ↑(f n) + ↑l := by abel

theorem buffered_setSrc (q : EventQueue) (i : Nat) (hi : i < q.numSources)
    (s : SourceState) :
    (↑((q.setSrc i s).buffered) : Multiset (Nat × Nat × Nat))
        + ↑((q.src i).queue.map fun r => (r.1, i, r.2))
      = ↑q.buffered + ↑(s.queue.map fun r => (r.1, i, r.2)) := by
  unfold EventQueue.buffered
  rw [setSrc_numSources]
  have hcong : ((List.range q.numSources).flatMap fun j =>
        ((q.setSrc i s).src j).queue.map fun r => (r.1, j, r.2))
      = (List.range q.numSources).flatMap fun j =>
          if j = i then s.queue.map (fun r => (r.1, i, r.2))
          else (q.src j).queue.map fun r => (r.1, j, r.2) := by
    apply flatMap_congr_on
    intro a _
    rw [setSrc_src]
    by_cases ha : a = i
    · subst ha
      rw [if_pos rfl, if_pos rfl]
    · rw [if_neg ha, if_neg ha]
  rw [hcong]
  exact flatMap_range_update q.numSources i hi
    (fun j => (q.src j).queue.map fun r => (r.1, j, r.2))
    (s.queue.map fun r => (r.1, i, r.2))

theorem buffered_markClosed (q : EventQueue) (i : Nat) :
    (q.markClosed i).buffered = q.buffered := by
  unfold EventQueue.markClosed
  split
  · unfold EventQueue.buffered
    rw [setSrc_numSources]
    apply flatMap_congr_on
    intro j _
    rw [setSrc_src]
    by_cases hj : j = i
    · subst hj
      rw [if_pos rfl]
    · rw [if_neg hj]
  · rfl

theorem pushRecords_cons (op : QueueOp) (rest : List QueueOp) :
    pushRecords (op :: rest) = pushRecords [op] ++ pushRecords rest := by
  cases op <;> rfl

theorem records_step (rs : QueueRun) (op : QueueOp) (hadm : rs.queue.admits op = true)
    (hf : rs.fatal = false) :
    (↑(rs.step op).popped + ↑(rs.step op).queue.buffered : Multiset (Nat × Nat × Nat))
      = ↑rs.popped + ↑rs.queue.buffered + ↑(pushRecords [op]) := by
  cases op with
  | push i ts payload =>
      obtain ⟨heq, h1, h2, h3⟩ := step_push_eq rs i ts payload hf hadm
      rw [heq]
      have hb := buffered_setSrc rs.queue i h1
        ⟨(rs.queue.src i).queue ++ [(ts, payload)], some ts, (rs.queue.src i).closed⟩
      simp only [List.map_append, List.map_cons, List.map_nil] at hb
      rw [← Multiset.coe_add] at hb
      have hb2 : (↑((rs.queue.setSrc i ⟨(rs.queue.src i).queue ++ [(ts, payload)], some ts,
            (rs.queue.src i).closed⟩).buffered) : Multiset (Nat × Nat × Nat))
          = ↑rs.queue.buffered + ↑([((ts, payload).1, i, (ts, payload).2)]) := by
        have := hb
        rw [show (↑rs.queue.buffered : Multiset (Nat × Nat × Nat))
              + (↑((rs.queue.src i).queue.map fun r => (r.1, i, r.2))
                + ↑[((ts, payload).1, i, (ts, payload).2)])
            = (↑rs.queue.buffered + ↑([((ts, payload).1, i, (ts, payload).2)]))
              + ↑((rs.queue.src i).queue.map fun r => (r.1, i, r.2)) from by abel] at this
        exact add_right_cancel this
      show (↑rs.popped + ↑((rs.queue.setSrc i ⟨(rs.queue.src i).queue ++ [(ts, payload)],
            some ts, (rs.queue.src i).closed⟩).buffered) : Multiset (Nat × Nat × Nat))
          = ↑rs.popped + ↑rs.queue.buffered + ↑(pushRecords [QueueOp.push i ts payload])
      rw [hb2]
      have hpr : pushRecords [QueueOp.push i ts payload] = [(ts, i, payload)] := rfl
      rw [hpr]
      abel
  | close i =>
      rw [step_close_eq rs i hf]
      show (↑rs.popped + ↑(rs.queue.markClosed i).buffered : Multiset (Nat × Nat × Nat))
          = ↑rs.popped + ↑rs.queue.buffered + ↑(pushRecords [QueueOp.close i])
      rw [buffered_markClosed]
      have hpr : pushRecords [QueueOp.close i] = [] := rfl
      rw [hpr]
      simp
  | pop =>
      cases hp : rs.queue.popIfSafe with
      | none =>
          rw [step_pop_none rs hf hp]
          have hpr : pushRecords [QueueOp.pop] = [] := rfl
          rw [hpr]
          simp
      | some rq =>
          obtain ⟨⟨t, i, p⟩, q2⟩ := rq
          rw [step_pop_some rs (t, i, p) q2 hf hp]
          obtain ⟨hi, rest, hq, hq2, hmin, hall⟩ := popIfSafe_spec rs.queue t i p q2 hp
          subst hq2
          have hb := buffered_setSrc rs.queue i hi
            ⟨rest, (rs.queue.src i).lastTs, (rs.queue.src i).closed⟩
          rw [hq] at hb
          simp only [List.map_cons] at hb
          have hb2 : (↑rs.queue.buffered : Multiset (Nat × Nat × Nat))
              = ↑((rs.queue.setSrc i ⟨rest, (rs.queue.src i).lastTs,
                  (rs.queue.src i).closed⟩).buffered) + {(t, i, p)} := by
            have hcons : (↑((((t, p) : Nat × Nat).1, i, ((t, p) : Nat × Nat).2)
                  :: rest.map fun r => (r.1, i, r.2)) : Multiset (Nat × Nat × Nat))
                = {(t, i, p)} + ↑(rest.map fun r => (r.1, i, r.2)) := by
              simp
            rw [hcons] at hb
            have hb3 := hb
            rw [show (↑((rs.queue.setSrc i ⟨rest, (rs.queue.src i).lastTs,
                  (rs.queue.src i).closed⟩).buffered) : Multiset (Nat × Nat × Nat))
                + ({(t, i, p)} + ↑(rest.map fun r => (r.1, i, r.2)))
              = (↑((rs.queue.setSrc i ⟨rest, (rs.queue.src i).lastTs,
                  (rs.queue.src i).closed⟩).buffered) + {(t, i, p)})
                + ↑(rest.map fun r => (r.1, i, r.2)) from by abel] at hb3
            exact (add_right_cancel hb3).symm
          show (↑(rs.popped ++ [(t, i, p)])
              + ↑((rs.queue.setSrc i ⟨rest, (rs.queue.src i).lastTs,
                  (rs.queue.src i).closed⟩).buffered) : Multiset (Nat × Nat × Nat))
            = ↑rs.popped + ↑rs.queue.buffered + ↑(pushRecords [QueueOp.pop])
          rw [hb2]
          have hpr : pushRecords [QueueOp.pop] = [] := rfl
          rw [hpr]
          rw [← Multiset.coe_add]
          have hsing : (↑([(t, i, p)] : List (Nat × Nat × Nat)) : Multiset (Nat × Nat × Nat))
              = {(t, i, p)} := rfl
          simp only [hsing]
          simp only [Multiset.coe_nil]
          abel

theorem popIfSafe_eq_of_min (q : EventQueue) (c : Nat × Nat)
    (hmin : lexMin q.fronts = some c) :
    q.popIfSafe = (if (List.range q.numSources).all (fun j => q.allows c j) then
        match (q.src c.2).queue with
        | r :: rest =>
            some ((r.1, c.2, r.2),
              q.setSrc c.2 ⟨rest, (q.src c.2).lastTs, (q.src c.2).closed⟩)
        | [] => none
      else none) := by
  unfold EventQueue.popIfSafe
  rw [hmin]

theorem popIfSafe_none_of_min_none (q : EventQueue) (h : lexMin q.fronts = none) :
    q.popIfSafe = none := by
  unfold EventQueue.popIfSafe
  rw [h]

theorem records_run (ops : List QueueOp) :
    ∀ rs : QueueRun, rs.goodTrace ops = true → rs.fatal = false →
      (↑(rs.run ops).popped + ↑(rs.run ops).queue.buffered : Multiset (Nat × Nat × Nat))
        = ↑rs.popped + ↑rs.queue.buffered + ↑(pushRecords ops) := by
  induction ops with
  | nil =>
      intro rs _ _
      have hpr : pushRecords ([] : List QueueOp) = [] := rfl
      show (↑rs.popped + ↑rs.queue.buffered : Multiset (Nat × Nat × Nat))
          = ↑rs.popped + ↑rs.queue.buffered + ↑(pushRecords ([] : List QueueOp))
      rw [hpr]
      simp
  | cons op rest ih =>
      intro rs hg hf
      simp only [QueueRun.goodTrace, Bool.and_eq_true] at hg
      have hstep := records_step rs op hg.1 hf
      have hf2 := step_fatal rs op hg.1 hf
      have hrec := ih (rs.step op) hg.2 hf2
      have hrun : rs.run (op :: rest) = (rs.step op).run rest := rfl
      rw [hrun, hrec, hstep, pushRecords_cons op rest]
      rw [← Multiset.coe_add]
      abel

theorem buffered_pop_multiset (q : EventQueue) (t i p : Nat) (q2 : EventQueue)
    (hp : q.popIfSafe = some ((t, i, p), q2)) :
    (↑q.buffered : Multiset (Nat × Nat × Nat)) = ↑q2.buffered + {(t, i, p)} := by
  obtain ⟨hi, rest, hq, hq2, hmin, hall⟩ := popIfSafe_spec q t i p q2 hp
  subst hq2
  have hb := buffered_setSrc q i hi ⟨rest, (q.src i).lastTs, (q.src i).closed⟩
  rw [hq] at hb
  simp only [List.map_cons] at hb
  have hcons : (↑((((t, p) : Nat × Nat).1, i, ((t, p) : Nat × Nat).2)
        :: rest.map fun r => (r.1, i, r.2)) : Multiset (Nat × Nat × Nat))
      = {(t, i, p)} + ↑(rest.map fun r => (r.1, i, r.2)) := by
    simp
  rw [hcons] at hb
  rw [show (↑((q.setSrc i ⟨rest, (q.src i).lastTs, (q.src i).closed⟩).buffered)
        : Multiset (Nat × Nat × Nat)) + ({(t, i, p)} + ↑(rest.map fun r => (r.1, i, r.2)))
      = (↑((q.setSrc i ⟨rest, (q.src i).lastTs, (q.src i).closed⟩).buffered) + {(t, i, p)})
        + ↑(rest.map fun r => (r.1, i, r.2)) from by abel] at hb
  exact (add_right_cancel hb).symm

theorem buffered_length_pop (q : EventQueue) (t i p : Nat) (q2 : EventQueue)
    (hp : q.popIfSafe = some ((t, i, p), q2)) :
    q.buffered.length = q2.buffered.length + 1 := by
  have hm := buffered_pop_multiset q t i p q2 hp
  have := congrArg Multiset.card hm
  simpa using this

/-- Every registered source is closed. -/
def EventQueue.allClosed (q : EventQueue) : Prop :=
  ∀ i, i < q.numSources → (q.src i).closed = true

theorem fronts_nil_of_buffered_nil (q : EventQueue) (h : q.buffered = []) :
    q.fronts = [] := by
  unfold EventQueue.buffered at h
  rw [List.flatMap_eq_nil_iff] at h
  unfold EventQueue.fronts
  rw [List.filterMap_eq_nil_iff]
  intro i hi
  have hmap := h i hi
  rw [List.map_eq_nil_iff] at hmap
  rw [hmap]

theorem buffered_ne_nil_fronts (q : EventQueue) (hne : q.buffered ≠ []) :
    q.fronts ≠ [] := by
  intro hf
  apply hne
  by_contra hb
  obtain ⟨r, hr⟩ := List.exists_mem_of_ne_nil q.buffered hb
  unfold EventQueue.buffered at hr
  rw [List.mem_flatMap] at hr
  obtain ⟨i, hi, hri⟩ := hr
  rw [List.mem_range] at hi
  cases hq : (q.src i).queue with
  | nil =>
      rw [hq] at hri
      simp at hri
  | cons r0 rest =>
      have hmem : ((r0.1, i) : Nat × Nat) ∈ q.fronts := by
        rw [fronts_mem_iff]
        exact ⟨hi, r0.2, rest, by rw [hq]⟩
      rw [hf] at hmem
      cases hmem

theorem pop_succeeds_allClosed (q : EventQueue) (hc : q.allClosed)
    (hne : q.buffered ≠ []) : ∃ r q2, q.popIfSafe = some (r, q2) := by
  have hfne := buffered_ne_nil_fronts q hne
  obtain ⟨c, hmin⟩ := lexMin_isSome q.fronts hfne
  have hcmem := lexMin_mem _ _ hmin
  rw [fronts_mem_iff] at hcmem
  obtain ⟨hlt, p, rest, hq⟩ := hcmem
  have hall : (List.range q.numSources).all (fun j => q.allows c j) = true := by
    rw [List.all_eq_true]
    intro j hj
    rw [List.mem_range] at hj
    unfold EventQueue.allows
    rw [hc j hj]
    simp
  refine ⟨(c.1, c.2, p), q.setSrc c.2 ⟨rest, (q.src c.2).lastTs, (q.src c.2).closed⟩, ?_⟩
  rw [popIfSafe_eq_of_min q c hmin, if_pos hall, hq]

theorem allClosed_pop (q : EventQueue) (t i p : Nat) (q2 : EventQueue)
    (hp : q.popIfSafe = some ((t, i, p), q2)) (hc : q.allClosed) : q2.allClosed := by
  obtain ⟨hi, rest, hq, hq2, hmin, hall⟩ := popIfSafe_spec q t i p q2 hp
  subst hq2
  intro j hj
  rw [setSrc_numSources] at hj
  rw [setSrc_src]
  by_cases hji : j = i
  · subst hji
    rw [if_pos rfl]
    exact hc j hj
  · rw [if_neg hji]
    exact hc j hj

theorem drain_pops (n : Nat) :
    ∀ rs : QueueRun, rs.fatal = false → rs.queue.allClosed →
      rs.queue.buffered.length ≤ n →
      (rs.run (List.replicate n QueueOp.pop)).queue.buffered = [] ∧
      (rs.run (List.replicate n QueueOp.pop)).fatal = false := by
  induction n with
  | zero =>
      intro rs hf _ hlen
      have hnil : rs.queue.buffered = [] := List.eq_nil_of_length_eq_zero (by omega)
      exact ⟨hnil, hf⟩
  | succ n ih =>
      intro rs hf hc hlen
      have hrun : rs.run (List.replicate (n + 1) QueueOp.pop)
          = (rs.step QueueOp.pop).run (List.replicate n QueueOp.pop) := rfl
      rw [hrun]
      by_cases hne : rs.queue.buffered = []
      · have hfr := fronts_nil_of_buffered_nil rs.queue hne
        have hp : rs.queue.popIfSafe = none :=
          popIfSafe_none_of_min_none rs.queue (by rw [hfr]; rfl)
        rw [step_pop_none rs hf hp]
        exact ih rs hf hc (by rw [hne]; simp)
      · obtain ⟨r, q2, hp⟩ := pop_succeeds_allClosed rs.queue hc hne
        obtain ⟨t, i, p⟩ := r
        rw [step_pop_some rs (t, i, p) q2 hf hp]
        have hlen2 := buffered_length_pop rs.queue t i p q2 hp
        exact ih ⟨q2, rs.popped ++ [(t, i, p)], false⟩ rfl
          (allClosed_pop rs.queue t i p q2 hp hc) (by simp only; omega)

theorem markClosed_src_queue (q : EventQueue) (i j : Nat) :
    ((q.markClosed i).src j).queue = (q.src j).queue := by
  unfold EventQueue.markClosed
  split
  · rw [setSrc_src]
    by_cases hj : j = i
    · subst hj
      rw [if_pos rfl]
    · rw [if_neg hj]
  · rfl

theorem markClosed_src_lastTs (q : EventQueue) (i j : Nat) :
    ((q.markClosed i).src j).lastTs = (q.src j).lastTs := by
  unfold EventQueue.markClosed
  split
  · rw [setSrc_src]
    by_cases hj : j = i
    · subst hj
      rw [if_pos rfl]
    · rw [if_neg hj]
  · rfl

theorem markClosed_closed_self (q : EventQueue) (i : Nat) (hi : i < q.numSources) :
    ((q.markClosed i).src i).closed = true := by
  unfold EventQueue.markClosed
  rw [if_pos hi, setSrc_src, if_pos rfl]

theorem markClosed_closed_mono (q : EventQueue) (i j : Nat)
    (h : (q.src j).closed = true) : ((q.markClosed i).src j).closed = true := by
  unfold EventQueue.markClosed
  split
  · rw [setSrc_src]
    by_cases hj : j = i
    · subst hj
      rw [if_pos rfl]
    · rw [if_neg hj]
      exact h
  · exact h

theorem run_closes (l : List Nat) :
    ∀ rs : QueueRun, rs.fatal = false →
      (rs.run (l.map QueueOp.close)).popped = rs.popped ∧
      (rs.run (l.map QueueOp.close)).fatal = false ∧
      (rs.run (l.map QueueOp.close)).queue.numSources = rs.queue.numSources ∧
      (∀ j, ((rs.run (l.map QueueOp.close)).queue.src j).queue = (rs.queue.src j).queue) ∧
      (∀ j, j ∈ l → j < rs.queue.numSources →
          ((rs.run (l.map QueueOp.close)).queue.src j).closed = true) ∧
      (∀ j, (rs.queue.src j).closed = true →
          ((rs.run (l.map QueueOp.close)).queue.src j).closed = true) := by
  induction l with
  | nil =>
      intro rs hf
      exact ⟨rfl, hf, rfl, fun j => rfl, by simp, fun j h => h⟩
  | cons i rest ih =>
      intro rs hf
      have hrun : rs.run ((i :: rest).map QueueOp.close)
          = (rs.step (QueueOp.close i)).run (rest.map QueueOp.close) := rfl
      rw [hrun, step_close_eq rs i hf]
      obtain ⟨hpo, hfa, hns, hqs, hcl1, hcl2⟩ :=
        ih ⟨rs.queue.markClosed i, rs.popped, false⟩ rfl
      refine ⟨hpo, hfa, ?_, ?_, ?_, ?_⟩
      · rw [hns]
        exact markClosed_numSources rs.queue i
      · intro j
        rw [hqs j]
        exact markClosed_src_queue rs.queue i j
      · intro j hj hjn
        rcases List.mem_cons.1 hj with hj | hj
        · subst hj
          exact hcl2 j (markClosed_closed_self rs.queue j hjn)
        · exact hcl1 j hj (by rw [markClosed_numSources] at hns ⊢; exact hjn)
      · intro j hcj
        exact hcl2 j (markClosed_closed_mono rs.queue i j hcj)

/-- The timestamps pushed for source `i` by the trace, in order. -/
def pushedTsIn (ops : List QueueOp) (i : Nat) : List Nat :=
  ops.filterMap fun op =>
    match op with
    | .push j ts _ => if j = i then some ts else none
    | _ => none

/-- The last element of `l`, or `m` when `l` is empty. -/
def lastOr (m : Option Nat) (l : List Nat) : Option Nat :=
  match l.getLast? with
  | some t => some t
  | none => m

theorem lastOr_cons (m : Option Nat) (t : Nat) (l : List Nat) :
    lastOr m (t :: l) = lastOr (some t) l := by
  cases l with
  | nil => rfl
  | cons c cs =>
      unfold lastOr
      rw [List.getLast?_cons_cons]
      cases hg : (c :: cs).getLast? with
      | none => simp at hg
      | some w => rfl

theorem lastOr_none_eq (l : List Nat) : lastOr none l = l.getLast? := by
  unfold lastOr
  cases l.getLast? <;> rfl

theorem run_lastTs (ops : List QueueOp) :
    ∀ rs : QueueRun, rs.goodTrace ops = true → rs.fatal = false → ∀ i,
      ((rs.run ops).queue.src i).lastTs
        = lastOr ((rs.queue.src i).lastTs) (pushedTsIn ops i) := by
  induction ops with
  | nil =>
      intro rs _ _ i
      rfl
  | cons op rest ih =>
      intro rs hg hf i
      simp only [QueueRun.goodTrace, Bool.and_eq_true] at hg
      have hf2 := step_fatal rs op hg.1 hf
      have hrun : rs.run (op :: rest) = (rs.step op).run rest := rfl
      rw [hrun, ih (rs.step op) hg.2 hf2 i]
      cases op with
      | push j ts payload =>
          obtain ⟨heq, h1, h2, h3⟩ := step_push_eq rs j ts payload hf hg.1
          rw [heq]
          by_cases hij : i = j
          · subst hij
            have hsrc : ((rs.queue.setSrc i ⟨(rs.queue.src i).queue ++ [(ts, payload)],
                some ts, (rs.queue.src i).closed⟩).src i).lastTs = some ts := by
              rw [setSrc_src, if_pos rfl]
            rw [show ((⟨rs.queue.setSrc i ⟨(rs.queue.src i).queue ++ [(ts, payload)],
                some ts, (rs.queue.src i).closed⟩, rs.popped, false⟩
                : QueueRun).queue.src i).lastTs
              = ((rs.queue.setSrc i ⟨(rs.queue.src i).queue ++ [(ts, payload)],
                some ts, (rs.queue.src i).closed⟩).src i).lastTs from rfl, hsrc]
            have hpin : pushedTsIn (QueueOp.push i ts payload :: rest) i
                = ts :: pushedTsIn rest i := by
              unfold pushedTsIn
              rw [List.filterMap_cons]
              simp
            rw [hpin, lastOr_cons]
          · have hsrc : ((rs.queue.setSrc j ⟨(rs.queue.src j).queue ++ [(ts, payload)],
                some ts, (rs.queue.src j).closed⟩).src i).lastTs
                = (rs.queue.src i).lastTs := by
              rw [setSrc_src, if_neg hij]
            rw [show ((⟨rs.queue.setSrc j ⟨(rs.queue.src j).queue ++ [(ts, payload)],
                some ts, (rs.queue.src j).closed⟩, rs.popped, false⟩
                : QueueRun).queue.src i).lastTs
              = ((rs.queue.setSrc j ⟨(rs.queue.src j).queue ++ [(ts, payload)],
                some ts, (rs.queue.src j).closed⟩).src i).lastTs from rfl, hsrc]
            have hpin : pushedTsIn (QueueOp.push j ts payload :: rest) i
                = pushedTsIn rest i := by
              unfold pushedTsIn
              rw [List.filterMap_cons]
              simp [Ne.symm hij]
            rw [hpin]
      | close j =>
          rw [step_close_eq rs j hf]
          have h1 : ((rs.queue.markClosed j).src i).lastTs = (rs.queue.src i).lastTs :=
            markClosed_src_lastTs rs.queue j i
          rw [show ((⟨rs.queue.markClosed j, rs.popped, false⟩
              : QueueRun).queue.src i).lastTs
            = ((rs.queue.markClosed j).src i).lastTs from rfl, h1]
          rfl
      | pop =>
          cases hp : rs.queue.popIfSafe with
          | none =>
              rw [step_pop_none rs hf hp]
              rfl
          | some rq =>
              obtain ⟨⟨t, j, p⟩, q2⟩ := rq
              rw [step_pop_some rs (t, j, p) q2 hf hp]
              obtain ⟨hj, rest2, hq, hq2, _, _⟩ := popIfSafe_spec rs.queue t j p q2 hp
              subst hq2
              have hsrc : ((rs.queue.setSrc j ⟨rest2, (rs.queue.src j).lastTs,
                  (rs.queue.src j).closed⟩).src i).lastTs = (rs.queue.src i).lastTs := by
                rw [setSrc_src]
                by_cases hij : i = j
                · subst hij
                  rw [if_pos rfl]
                · rw [if_neg hij]
              rw [show ((⟨rs.queue.setSrc j ⟨rest2, (rs.queue.src j).lastTs,
                  (rs.queue.src j).closed⟩, rs.popped ++ [(t, j, p)], false⟩
                  : QueueRun).queue.src i).lastTs
                = ((rs.queue.setSrc j ⟨rest2, (rs.queue.src j).lastTs,
                  (rs.queue.src j).closed⟩).src i).lastTs from rfl, hsrc]
              rfl

theorem goodTrace_append (a b : List QueueOp) :
    ∀ rs : QueueRun, rs.goodTrace (a ++ b) = (rs.goodTrace a && (rs.run a).goodTrace b) := by
  induction a with
  | nil =>
      intro rs
      show rs.goodTrace b = (true && rs.goodTrace b)
      rw [Bool.true_and]
  | cons op t ih =>
      intro rs
      show (rs.queue.admits op && (rs.step op).goodTrace (t ++ b))
          = ((rs.queue.admits op && (rs.step op).goodTrace t)
              && ((rs.step op).run t).goodTrace b)
      rw [ih (rs.step op), Bool.and_assoc]

theorem goodTrace_closes (l : List Nat) :
    ∀ rs : QueueRun, (∀ i ∈ l, i < rs.queue.numSources) →
      rs.goodTrace (l.map QueueOp.close) = true := by
  induction l with
  | nil => intro rs _; rfl
  | cons i t ih =>
      intro rs h
      show (rs.queue.admits (QueueOp.close i)
          && (rs.step (QueueOp.close i)).goodTrace (t.map QueueOp.close)) = true
      rw [Bool.and_eq_true]
      constructor
      · unfold EventQueue.admits
        simp [h i (List.mem_cons_self i t)]
      · apply ih
        intro a ha
        rw [step_numSources]
        exact h a (List.mem_cons_of_mem i ha)

theorem goodTrace_pops (n : Nat) :
    ∀ rs : QueueRun, rs.goodTrace (List.replicate n QueueOp.pop) = true := by
  induction n with
  | zero => intro rs; rfl
  | succ n ih =>
      intro rs
      show (rs.queue.admits QueueOp.pop
          && (rs.step QueueOp.pop).goodTrace (List.replicate n QueueOp.pop)) = true
      rw [ih (rs.step QueueOp.pop)]
      rfl

theorem run_append (rs : QueueRun) (a b : List QueueOp) :
    rs.run (a ++ b) = (rs.run a).run b := by
  unfold QueueRun.run
  rw [List.foldl_append]

theorem buffered_initial (k : Nat) : (EventQueue.initial k).buffered = [] := by
  unfold EventQueue.buffered
  rw [List.flatMap_eq_nil_iff]
  intro i _
  rfl

theorem buffered_congr (qa qb : EventQueue) (hn : qa.numSources = qb.numSources)
    (hq : ∀ j, (qa.src j).queue = (qb.src j).queue) : qa.buffered = qb.buffered := by
  unfold EventQueue.buffered
  rw [hn]
  apply flatMap_congr_on
  intro a _
  rw [hq a]

theorem filterMap_congr_on (l : List Nat) (f g : Nat → Option (Nat × Nat))
    (h : ∀ a ∈ l, f a = g a) : l.filterMap f = l.filterMap g := by
  induction l with
  | nil => rfl
  | cons a t ih =>
      rw [List.filterMap_cons, List.filterMap_cons, h a (List.mem_cons_self a t),
        ih fun b hb => h b (List.mem_cons_of_mem a hb)]

theorem pushRecords_append (a b : List QueueOp) :
    pushRecords (a ++ b) = pushRecords a ++ pushRecords b := by
  unfold pushRecords
  rw [List.filterMap_append]

theorem pushRecords_close_map (l : List Nat) :
    pushRecords (l.map QueueOp.close) = [] := by
  induction l with
  | nil => rfl
  | cons i t ih =>
      show pushRecords (QueueOp.close i :: t.map QueueOp.close) = []
      rw [pushRecords_cons, show pushRecords [QueueOp.close i] = [] from rfl,
        List.nil_append]
      exact ih

theorem pushRecords_replicate_pop (n : Nat) :
    pushRecords (List.replicate n QueueOp.pop) = [] := by
  induction n with
  | zero => rfl
  | succ n ih =>
      show pushRecords (QueueOp.pop :: List.replicate n QueueOp.pop) = []
      rw [pushRecords_cons, show pushRecords [QueueOp.pop] = [] from rfl,
        List.nil_append]
      exact ih

/-- The trace that closes all `k` sources and then pops once per pushed record — the
session-stop drain. -/
def drainOps (k : Nat) (ops : List QueueOp) : List QueueOp :=
  ops ++ (List.range k).map QueueOp.close
    ++ List.replicate (pushRecords ops).length QueueOp.pop

/-- The spec scenario: source A (id 0) pushes [10, 30], source B (id 1) pushes
[5, 20, 40], both are marked closed, and five pops drain the queue. -/
def scenarioOps : List QueueOp :=
  [QueueOp.push 0 10 100, QueueOp.push 0 30 101, QueueOp.push 1 5 200,
   QueueOp.push 1 20 201, QueueOp.push 1 40 202, QueueOp.close 0, QueueOp.close 1,
   QueueOp.pop, QueueOp.pop, QueueOp.pop, QueueOp.pop, QueueOp.pop]

/-- C1: over any admissible trace (each source's own pushed timestamps non-decreasing, no
pushes after close), the timestamps of the records `PopIfSafe` returns form a
non-decreasing sequence; after closing every source and popping once per pushed record the
queue is fully drained, the popped sequence is still non-decreasing and is a permutation
of the pushed records — every pushed record is returned exactly once; and the concrete
scenario A = [10, 30], B = [5, 20, 40] drains to pop timestamps [5, 10, 20, 30, 40]. -/
theorem eventQueue_global_order_c1 (k : Nat) (ops : List QueueOp)
    (hgood : (QueueRun.start k).goodTrace ops = true) :
    List.Chain' (· ≤ ·) (((QueueRun.start k).run ops).popped.map fun r => r.1) ∧
    List.Chain' (· ≤ ·)
      (((QueueRun.start k).run (drainOps k ops)).popped.map fun r => r.1) ∧
    ((QueueRun.start k).run (drainOps k ops)).queue.buffered = [] ∧
    ((QueueRun.start k).run (drainOps k ops)).popped.Perm (pushRecords ops) ∧
    ((QueueRun.start 2).run scenarioOps).popped.map (fun r => r.1)
      = [5, 10, 20, 30, 40] := by
  obtain ⟨hf1, hch1, hq1⟩ := runInv_run ops (QueueRun.start k) hgood (runInv_start k)
  have hns1 : ((QueueRun.start k).run ops).queue.numSources = k :=
    run_numSources ops (QueueRun.start k)
  obtain ⟨hpo2, hf2, hns2, hqs2, hclosed2, _⟩ :=
    run_closes (List.range k) ((QueueRun.start k).run ops) hf1
  have hgcl : ((QueueRun.start k).run ops).goodTrace ((List.range k).map QueueOp.close)
      = true := by
    apply goodTrace_closes
    intro i hi
    rw [hns1]
    exact List.mem_range.1 hi
  have hgfull1 : (QueueRun.start k).goodTrace
      (ops ++ (List.range k).map QueueOp.close) = true := by
    rw [goodTrace_append, hgood, hgcl]
    rfl
  have hgfull : (QueueRun.start k).goodTrace (drainOps k ops) = true := by
    unfold drainOps
    rw [goodTrace_append, hgfull1,
      goodTrace_pops (pushRecords ops).length]
    rfl
  obtain ⟨hfD, hchD, hqD⟩ :=
    runInv_run (drainOps k ops) (QueueRun.start k) hgfull (runInv_start k)
  have hstart_pop : (QueueRun.start k).popped = [] := rfl
  have hstart_buf : (QueueRun.start k).queue.buffered = [] := buffered_initial k
  have hrec1 := records_run ops (QueueRun.start k) hgood rfl
  rw [hstart_pop, hstart_buf] at hrec1
  simp only [Multiset.coe_nil, zero_add] at hrec1
  have hlen1 : ((QueueRun.start k).run ops).popped.length
      + ((QueueRun.start k).run ops).queue.buffered.length = (pushRecords ops).length := by
    have := congrArg Multiset.card hrec1
    simpa using this
  have hsplit : (QueueRun.start k).run (drainOps k ops)
      = (((QueueRun.start k).run ops).run ((List.range k).map QueueOp.close)).run
          (List.replicate (pushRecords ops).length QueueOp.pop) := by
    unfold drainOps
    rw [run_append, run_append]
  have hac : (((QueueRun.start k).run ops).run
      ((List.range k).map QueueOp.close)).queue.allClosed := by
    intro i hi
    rw [hns2, hns1] at hi
    exact hclosed2 i (List.mem_range.2 hi) (by rw [hns1]; exact hi)
  have hbeq : (((QueueRun.start k).run ops).run
        ((List.range k).map QueueOp.close)).queue.buffered
      = ((QueueRun.start k).run ops).queue.buffered :=
    buffered_congr _ _ hns2 hqs2
  obtain ⟨hempty, _⟩ := drain_pops (pushRecords ops).length
    (((QueueRun.start k).run ops).run ((List.range k).map QueueOp.close)) hf2 hac
    (by rw [hbeq]; omega)
  have hbufD : ((QueueRun.start k).run (drainOps k ops)).queue.buffered = [] := by
    rw [hsplit]
    exact hempty
  have hprD : pushRecords (drainOps k ops) = pushRecords ops := by
    unfold drainOps
    rw [pushRecords_append, pushRecords_append, pushRecords_close_map,
      pushRecords_replicate_pop, List.append_nil, List.append_nil]
  have hrecD := records_run (drainOps k ops) (QueueRun.start k) hgfull rfl
  rw [hstart_pop, hstart_buf, hprD, hbufD] at hrecD
  simp only [Multiset.coe_nil, zero_add, add_zero] at hrecD
  have hperm : ((QueueRun.start k).run (drainOps k ops)).popped.Perm
      (pushRecords ops) := by
    rw [← Multiset.coe_eq_coe]
    exact hrecD
  refine ⟨hch1, hchD, hbufD, hperm, ?_⟩
  decide

/-- Witness for C1: the spec scenario itself is an admissible trace on two sources, its
pop timestamps are non-decreasing, and they are exactly [5, 10, 20, 30, 40]. -/
theorem eventQueue_global_order_c1_witness :
    (QueueRun.start 2).goodTrace scenarioOps = true ∧
    List.Chain' (· ≤ ·) (((QueueRun.start 2).run scenarioOps).popped.map fun r => r.1) ∧
    ((QueueRun.start 2).run scenarioOps).popped.map (fun r => r.1)
      = [5, 10, 20, 30, 40] :=
  ⟨by decide,
    (eventQueue_global_order_c1 2 scenarioOps (by decide)).1,
    (eventQueue_global_order_c1 2 scenarioOps (by decide)).2.2.2.2⟩

/-- C2: while source `j` is active with an empty queue and last known front `u`, every
record `PopIfSafe` returns lexicographically precedes `(u, j)` — the watermark never
advances past the empty source's last known front; and once `j` is marked closed,
whenever every other registered source already permits the least buffered front,
`PopIfSafe` immediately returns that front — closing the empty source lets the watermark
advance past anything `j` could have blocked. -/
theorem emptySource_blocks_until_closed_c2 (q : EventQueue) (j u : Nat)
    (hj : j < q.numSources) (hact : (q.src j).closed = false)
    (hemp : (q.src j).queue = []) (hlast : (q.src j).lastTs = some u) :
    (∀ t i p q2, q.popIfSafe = some ((t, i, p), q2) → lexBefore (t, i) (u, j)) ∧
    (∀ c : Nat × Nat, lexMin q.fronts = some c →
      (∀ j2, j2 < q.numSources → j2 ≠ j → q.allows c j2 = true) →
      (q.markClosed j).popIfSafe.map (fun rq => (rq.1.1, rq.1.2.1))
        = some (c.1, c.2)) := by
  constructor
  · intro t i p q2 hp
    obtain ⟨hi, rest, hq, hq2, hmin, hall⟩ := popIfSafe_spec q t i p q2 hp
    have hne : j ≠ i := by
      intro hji
      subst hji
      rw [hemp] at hq
      cases hq
    have hA := hall j hj
    unfold EventQueue.allows at hA
    rw [hemp, hlast] at hA
    simp [hne, hact] at hA
    exact hA
  · intro c hmin hallows
    obtain ⟨c1, c2⟩ := c
    have hcmem := lexMin_mem _ _ hmin
    rw [fronts_mem_iff] at hcmem
    obtain ⟨hlt, p, rest, hq⟩ := hcmem
    have hne : c2 ≠ j := by
      intro hcj
      rw [hcj] at hq
      rw [hemp] at hq
      cases hq
    have hfr : (q.markClosed j).fronts = q.fronts := by
      unfold EventQueue.fronts
      rw [markClosed_numSources]
      apply filterMap_congr_on
      intro a _
      rw [markClosed_src_queue]
    have hallc : (List.range (q.markClosed j).numSources).all
        (fun j2 => (q.markClosed j).allows (c1, c2) j2) = true := by
      rw [markClosed_numSources, List.all_eq_true]
      intro j2 hj2
      rw [List.mem_range] at hj2
      by_cases hjj : j2 = j
      · subst hjj
        unfold EventQueue.allows
        rw [markClosed_closed_self q j2 hj2]
        simp
      · have hsame : (q.markClosed j).src j2 = q.src j2 := by
          unfold EventQueue.markClosed
          rw [if_pos hj, setSrc_src, if_neg hjj]
        unfold EventQueue.allows
        rw [hsame]
        by_cases hjc : j2 = c2
        · subst hjc
          simp
        · have hA := hallows j2 hj2 hjj
          unfold EventQueue.allows at hA
          exact hA
    rw [popIfSafe_eq_of_min (q.markClosed j) (c1, c2) (by rw [hfr]; exact hmin)]
    rw [if_pos hallc]
    have hqm : ((q.markClosed j).src ((c1, c2) : Nat × Nat).2).queue = (c1, p) :: rest := by
      rw [markClosed_src_queue]
      exact hq
    rw [hqm]
    rfl

/-- A reachable state used to witness C2: source 1 pushed timestamp 5 (already popped),
source 0 holds timestamp 10; source 1 is active and empty, so the pop of 10 is blocked
until source 1 is closed. -/
def c2WitnessQueue : EventQueue :=
  ((QueueRun.start 2).run
    [QueueOp.push 1 5 0, QueueOp.push 0 10 1, QueueOp.pop]).queue

/-- Witness for C2: on the concrete blocked state, closing the empty active source 1 makes
`PopIfSafe` immediately return the buffered front (10, source 0). -/
theorem emptySource_blocks_until_closed_c2_witness :
    (1 < c2WitnessQueue.numSources ∧ (c2WitnessQueue.src 1).closed = false ∧
      (c2WitnessQueue.src 1).queue = [] ∧ (c2WitnessQueue.src 1).lastTs = some 5) ∧
    (c2WitnessQueue.markClosed 1).popIfSafe.map (fun rq => (rq.1.1, rq.1.2.1))
      = some (10, 0) :=
  ⟨⟨by decide, by decide, by decide, by decide⟩,
    (emptySource_blocks_until_closed_c2 c2WitnessQueue 1 5 (by decide) (by decide)
        (by decide) (by decide)).2 (10, 0) (by decide) (by decide)⟩

/-- C3: after any admissible trace, `Push(source_id, record)` hits the fatal
ordering-violation check exactly when the pushed timestamp is strictly older than the last
timestamp previously pushed for that same source; every push at or above the source's last
pushed timestamp passes without a fatal check. -/
theorem push_fatal_iff_c3 (k : Nat) (ops : List QueueOp) (i ts payload : Nat)
    (hk : i < k) (hgood : (QueueRun.start k).goodTrace ops = true) :
    ((QueueRun.start k).run ops).queue.push i ts payload = none
      ↔ ∃ u, (pushedTsIn ops i).getLast? = some u ∧ ts < u := by
  have hns : ((QueueRun.start k).run ops).queue.numSources = k :=
    run_numSources ops (QueueRun.start k)
  have hlast := run_lastTs ops (QueueRun.start k) hgood rfl i
  have hstart : ((QueueRun.start k).queue.src i).lastTs = none := rfl
  rw [hstart, lastOr_none_eq] at hlast
  unfold EventQueue.push
  rw [if_pos (show i < ((QueueRun.start k).run ops).queue.numSources by
    rw [hns]; exact hk)]
  rw [hlast]
  cases hg : (pushedTsIn ops i).getLast? with
  | none => simp
  | some u =>
      by_cases ht : ts < u
      · simp [ht]
      · simp [ht]

/-- Witness for C3: after pushing timestamp 10 on source 0, pushing timestamp 5 on the
same source hits the fatal check. -/
theorem push_fatal_iff_c3_witness :
    (0 < 1 ∧ (QueueRun.start 1).goodTrace [QueueOp.push 0 10 0] = true) ∧
    ((QueueRun.start 1).run [QueueOp.push 0 10 0]).queue.push 0 5 1 = none :=
  ⟨⟨by decide, by decide⟩,
    (push_fatal_iff_c3 1 [QueueOp.push 0 10 0] 0 5 1 (by decide) (by decide)).2
      ⟨10, by decide, by decide⟩⟩
